import Mathlib

/-!
Verification development for the Toxicity-Detector repository.

The repository consists of a Chrome extension (background service worker and
content script), a static web frontend, and documentation of a backend text
analysis pipeline (normalization, sarcasm detection, contextual analysis and
weighted score fusion).  The JavaScript sources present in the repository are
embedded faithfully below; the backend pipeline itself is not part of the
visible sources, so its components are modelled from the specification, as
marked in the corresponding doc comments.

Numbers are modelled with `ℚ` (the JavaScript/Python code uses floats, but all
constants involved are small decimal fractions, which `ℚ` represents exactly).
Strings are modelled with Lean `String` / `List Char`.
-/

namespace ToxDet

/-- ASCII space, the whitespace model used for trimming and tokenization. -/
def isSpaceC (c : Char) : Bool := c == ' '

/-- Lowercasing of one character (ASCII range, modelling the effect of
JavaScript `toLowerCase` / Python `lower` on the ASCII inputs relevant here). -/
def lowerChar (c : Char) : Char :=
  if 65 ≤ c.toNat ∧ c.toNat ≤ 90 then Char.ofNat (c.toNat + 32) else c

/-- Lowercasing of a list of characters. -/
def lowerL (l : List Char) : List Char := l.map lowerChar

/-- Trimming of leading and trailing spaces from a list of characters,
modelling JavaScript `String.prototype.trim` on space-whitespace. -/
def trimL (l : List Char) : List Char :=
  ((l.dropWhile isSpaceC).reverse.dropWhile isSpaceC).reverse

/-- Lowercasing of a string. -/
def lowerStr (s : String) : String := String.mk (lowerL s.toList)

/-- Trimming of a string. -/
def trimStr (s : String) : String := String.mk (trimL s.toList)

/-- True when the string consists of spaces only (in particular the empty
string); the whitespace-only inputs discussed by the error-handling claims. -/
def wsOnly (s : String) : Bool := s.toList.all isSpaceC

/-! ## Extension background worker (source: background service worker script)

The background script `handleToxicityDetection` keeps a cache keyed by
`text.toLowerCase().trim()`, serves a cached result younger than
`CACHE_DURATION`, otherwise POSTs to the backend; a non-OK HTTP status is
turned into a thrown `API error: <status>`, and any caught error produces the
fallback object `{is_toxic: false, confidence: 0, toxic_labels: [],
scores: {}, error: error.message}`.  The network interaction is modelled by a
`BackendOutcome` argument describing what the single `fetch` of that run would
produce; the function itself is total, mirroring the `try`/`catch` that
prevents any unhandled exception. -/

/-- Shape of the backend `/api/detect` JSON result consumed by the extension. -/
structure ApiResult where
  is_toxic : Bool
  confidence : ℚ
  toxic_labels : List String
  scores : List (String × ℚ)
deriving Repr, DecidableEq

/-- Message delivered to the content script via `sendResponse`: the fields of
the backend result plus the `error` field present only on the fallback path. -/
structure ExtResponse where
  is_toxic : Bool
  confidence : ℚ
  toxic_labels : List String
  scores : List (String × ℚ)
  error : Option String
deriving Repr, DecidableEq

/-- Forwarding a backend result unchanged (the `sendResponse(result)` path). -/
def resultResponse (r : ApiResult) : ExtResponse :=
  ⟨r.is_toxic, r.confidence, r.toxic_labels, r.scores, none⟩

/-- The fallback object built in the `catch` branch of the background
worker's `handleToxicityDetection`. -/
def errorResponse (msg : String) : ExtResponse :=
  ⟨false, 0, [], [], some msg⟩

/-- Outcome of the single backend call a detection run would perform:
a parsed JSON result, a non-OK HTTP status, or a thrown error (network
failure, JSON failure, …). -/
inductive BackendOutcome where
  | ok (r : ApiResult)
  | httpError (status : ℕ)
  | thrown (msg : String)
deriving Repr, DecidableEq

/-- Whether the backend call fails (non-OK status or thrown error). -/
def outcomeFails : BackendOutcome → Bool
  | .ok _ => false
  | .httpError _ => true
  | .thrown _ => true

/-- The error message recorded for a failing backend outcome: a non-OK
response throws `API error: <status>`, so its message is that string. -/
def failureMessage : BackendOutcome → Option String
  | .ok _ => none
  | .httpError s => some ("API error: " ++ toString s)
  | .thrown m => some m

/-- One entry of the background worker's `toxicityCache`. -/
structure CacheEntry where
  result : ApiResult
  timestamp : ℕ
deriving Repr, DecidableEq

/-- The `toxicityCache` map, modelled as an association list where `lookup`
finds the most recently set binding first. -/
abbrev Cache := List (String × CacheEntry)

/-- `CACHE_DURATION = 5 * 60 * 1000` milliseconds. -/
def cacheDuration : ℕ := 5 * 60 * 1000

/-- The cache key: `text.toLowerCase().trim()`. -/
def cacheKey (text : String) : String := trimStr (lowerStr text)

/-- The cached entry served by `handleToxicityDetection`, if one exists and is
younger than `CACHE_DURATION` (`cached && Date.now() - cached.timestamp <
CACHE_DURATION`). -/
def freshCacheEntry (text : String) (cache : Cache) (now : ℕ) :
    Option CacheEntry :=
  match List.lookup (cacheKey text) cache with
  | some entry =>
      if now - entry.timestamp < cacheDuration then some entry else none
  | none => none

/-- Observable effect of one `handleToxicityDetection` run: the response sent,
the cache afterwards, and whether the backend was contacted at all. -/
structure DetectionRun where
  response : ExtResponse
  cache : Cache
  backendCalled : Bool
deriving Repr, DecidableEq

/-- The background worker's `handleToxicityDetection`: serve a fresh cached
result without touching the backend, otherwise call the backend; a successful
result is cached (keyed by the lowercased trimmed text) and forwarded, any
failure is converted into the fallback error object.  Total, like the
JavaScript `try`/`catch`. -/
def handleToxicityDetection (text : String) (cache : Cache) (now : ℕ)
    (outcome : BackendOutcome) : DetectionRun :=
  match freshCacheEntry text cache now with
  | some entry => ⟨resultResponse entry.result, cache, false⟩
  | none =>
      match outcome with
      | .ok r => ⟨resultResponse r, (cacheKey text, ⟨r, now⟩) :: cache, true⟩
      | .httpError s =>
          ⟨errorResponse ("API error: " ++ toString s), cache, true⟩
      | .thrown m => ⟨errorResponse m, cache, true⟩

/-! ## Extension detoxification (background worker and content script) -/

/-- Response of the background worker's `handleTextDetoxification`: the
backend JSON may or may not carry a `detoxified_text` field (`none` models an
absent or non-truthy field), and the `error` field is set on the fallback
path. -/
structure DetoxResponse where
  detoxified_text : Option String
  error : Option String
deriving Repr, DecidableEq

/-- Outcome of the single `/api/detoxify` call of a detoxification run. -/
inductive DetoxOutcome where
  | ok (resp : DetoxResponse)
  | httpError (status : ℕ)
  | thrown (msg : String)
deriving Repr, DecidableEq

/-- Whether the detoxify backend call fails. -/
def detoxFails : DetoxOutcome → Bool
  | .ok _ => false
  | .httpError _ => true
  | .thrown _ => true

/-- The background worker's `handleTextDetoxification`: forward the backend
response, or on any error respond with the unmodified input text as
`detoxified_text` plus the error message. -/
def handleTextDetoxification (text : String) (outcome : DetoxOutcome) :
    DetoxResponse :=
  match outcome with
  | .ok resp => resp
  | .httpError s => ⟨some text, some ("API error: " ++ toString s)⟩
  | .thrown m => ⟨some text, some m⟩

/-- Element-content update performed by the content script's `quickDetoxify`:
the monitored element is rewritten only when the response carries a truthy
`detoxified_text` (present and non-empty) that differs from the original text
(`response.detoxified_text && response.detoxified_text !== text`). -/
def quickDetoxifyContent (text : String) (resp : DetoxResponse)
    (content : String) : String :=
  match resp.detoxified_text with
  | some d => if d ≠ "" ∧ d ≠ text then d else content
  | none => content

/-! ## Extension input guards and settings -/

/-- Default settings written by the background worker on install. -/
structure Settings where
  enabled : Bool
  autoDetect : Bool
  showSuggestions : Bool
  sensitivity : ℚ
  platforms : List (String × Bool)
deriving Repr, DecidableEq

/-- The `chrome.storage.sync.set` defaults from the background worker's
`onInstalled` handler. -/
def defaultSettings : Settings :=
  { enabled := true
    autoDetect := true
    showSuggestions := true
    sensitivity := 7/10
    platforms := [("discord", true), ("slack", true), ("teams", true),
                  ("whatsapp", true), ("twitter", true), ("reddit", true)] }

/-- The content script's `detectToxicity` decision: the toxicity overlay is
shown exactly when `response.is_toxic && response.confidence >=
this.settings.sensitivity`. -/
def showWarningDecision (resp : ExtResponse) (sensitivity : ℚ) : Bool :=
  resp.is_toxic && decide (sensitivity ≤ resp.confidence)

/-- The content script's `handleInput` guard: detection is scheduled unless
`!text || text.length < 3` (empty, or shorter than 3 characters). -/
def handleInputTriggersDetection (text : String) : Bool :=
  !(text == "" || text.length < 3)

/-- The web page's `checkToxicity` guard: the `/api/detect` request is sent
unless `!text.trim()` (trimmed text empty, i.e. the input is empty or
whitespace-only). -/
def checkToxicitySendsRequest (text : String) : Bool :=
  !(trimStr text == "")

/-! ## Association-list lookup used by the pipeline dictionaries -/

/-- First-match association lookup with decidable key equality. -/
def assocFind {α β : Type} [DecidableEq α] (k : α) : List (α × β) → Option β
  | [] => none
  | p :: rest => if k = p.1 then some p.2 else assocFind k rest

/-! ## Tokenization

The backend pipeline sources are not part of the visible repository; the
following definitions are modelled from the specification.  Tokenization
splits a character list into maximal blocks of spaces and of non-spaces;
the non-space blocks are the whitespace-delimited words. -/

/-- Whether two characters are of the same kind (space vs non-space). -/
def kindEq (c d : Char) : Bool := isSpaceC c == isSpaceC d

/-- One step of block formation: a character is merged into the first block
when it has the same kind, otherwise it opens a new block. -/
def segCons (c : Char) : List (List Char) → List (List Char)
  | [] => [[c]]
  | b :: bs => if kindEq c (b.headD ' ') then (c :: b) :: bs else [c] :: b :: bs

/-- Modelled from the spec: the maximal same-kind blocks of a character list
(runs of spaces alternating with runs of non-spaces). -/
def seg : List Char → List (List Char)
  | [] => []
  | c :: cs => segCons c (seg cs)

/-- Whether a block is a space block (blocks produced by `seg` are nonempty,
so the default only pads the degenerate case). -/
def spaceBlock (b : List Char) : Bool := isSpaceC (b.headD ' ')

/-- The whitespace-delimited words (non-space blocks) of a character list. -/
def wordsOf (l : List Char) : List (List Char) :=
  (seg l).filter (fun b => !spaceBlock b)

/-- Modelled from the spec: application of a word-level rewriting function to
every whitespace-delimited word of the text, leaving the space runs untouched. -/
def mapWords (f : List Char → List Char) (l : List Char) : List Char :=
  ((seg l).map (fun b => if spaceBlock b then b else f b)).flatten

/-- Well-formed block decomposition: nonempty uniform-kind blocks with
alternating kinds; the shape invariant of `seg`. -/
def AltBlocks (bs : List (List Char)) : Prop :=
  (∀ b ∈ bs, b ≠ [] ∧ ∀ x ∈ b, isSpaceC x = spaceBlock b) ∧
  List.Chain' (fun b1 b2 => spaceBlock b1 ≠ spaceBlock b2) bs

/-! ## Normalizer (modelled from the spec) -/

/-- Modelled from the spec: the emoji-to-description table of the Normalizer;
unknown emoji are left as-is (the documented policy choice adopted here). -/
def emojiTable : List (Char × List Char) :=
  [('😡', "angry face".toList), ('🙄', "rolling eyes".toList),
   ('😀', "grinning face".toList)]

/-- Modelled from the spec: emoji pass — each known emoji character is
replaced by its text description, all other characters pass through. -/
def emojiPass : List Char → List Char
  | [] => []
  | c :: cs =>
      match assocFind c emojiTable with
      | some desc => desc ++ emojiPass cs
      | none => c :: emojiPass cs

/-- Modelled from the spec: slang/internet-abbreviation dictionary
(whole-word, case-insensitive). -/
def slangTable : List (List Char × List Char) :=
  [("lol".toList, "laugh out loud".toList),
   ("omg".toList, "oh my god".toList),
   ("ur".toList, "your".toList),
   ("btw".toList, "by the way".toList),
   ("idk".toList, "i do not know".toList)]

/-- Modelled from the spec: common-misspelling dictionary (whole-word,
case-insensitive fixed confusions, not a general spell checker). -/
def misspellTable : List (List Char × List Char) :=
  [("recieve".toList, "receive".toList),
   ("definately".toList, "definitely".toList),
   ("teh".toList, "the".toList)]

/-- Whole-word, case-insensitive dictionary rewriting of one word. -/
def dictWord (table : List (List Char × List Char)) (w : List Char) :
    List Char :=
  match assocFind (lowerL w) table with
  | some repl => repl
  | none => w

/-- Modelled from the spec: slang expansion pass. -/
def slangPass (l : List Char) : List Char := mapWords (dictWord slangTable) l

/-- Modelled from the spec: misspelling correction pass. -/
def misspellPass (l : List Char) : List Char :=
  mapWords (dictWord misspellTable) l

/-- Modelled from the spec: the repeated-character pass — every maximal run
of one character of length at least 3 is collapsed to its first two
characters, shorter runs are left unchanged.  (A character is dropped exactly
when the already-collapsed tail starts with two further copies of it.) -/
def collapse : List Char → List Char
  | [] => []
  | c :: cs =>
      match collapse cs with
      | d :: e :: rest =>
          if c == d && d == e then d :: e :: rest else c :: d :: e :: rest
      | rest => c :: rest

/-- ASCII uppercase letter test. -/
def isUpperC (c : Char) : Bool := decide (65 ≤ c.toNat) && decide (c.toNat ≤ 90)

/-- Modelled from the spec: a "shout" token — fully uppercase and of length
at least 4. -/
def isShout (w : List Char) : Bool := decide (4 ≤ w.length) && w.all isUpperC

/-- Lowercasing applied to shout words only. -/
def shoutWord (w : List Char) : List Char := if isShout w then lowerL w else w

/-- Modelled from the spec: case normalization pass — shout words are
lowercased, all other words are left unchanged. -/
def casePass (l : List Char) : List Char := mapWords shoutWord l

/-- Modelled from the spec: the Normalizer pipeline in its fixed order —
emoji description, slang expansion, misspelling correction,
repeated-character collapse, shout lowercasing; each pass operates on the
output of the previous pass. -/
def normalizeL (l : List Char) : List Char :=
  casePass (collapse (misspellPass (slangPass (emojiPass l))))

/-- Result of normalization.  (The specification also records a substitution
trace with offsets into the original string; no claim under verification
concerns that trace, so it is not modelled.) -/
structure NormalizationResult where
  original : String
  normalized : String
deriving Repr, DecidableEq

/-- Modelled from the spec: normalize — a total function (never fails). -/
def normalize (text : String) : NormalizationResult :=
  ⟨text, String.mk (normalizeL text.toList)⟩

/-- No three consecutive equal characters (every run has length at most 2). -/
def noTripleB : List Char → Bool
  | a :: b :: c :: rest => !(a == b && b == c) && noTripleB (b :: c :: rest)
  | _ => true

/-- No two consecutive equal characters (every run has length 1). -/
def noAdjB : List Char → Bool
  | a :: b :: rest => !(a == b) && noAdjB (b :: rest)
  | _ => true

/-- No normalization rule applies to the text: no known emoji character, no
slang or misspelling dictionary word, no character run of length 3 or more,
and no shout word. -/
def unmappedB (l : List Char) : Bool :=
  l.all (fun c => (assocFind c emojiTable).isNone) &&
  ((wordsOf l).all (fun w =>
      (assocFind (lowerL w) slangTable).isNone &&
      (assocFind (lowerL w) misspellTable).isNone && !isShout w)) &&
  noTripleB l

/-! ## Sarcasm detector (modelled from the spec) -/

/-- Clamping to the unit interval. -/
def clamp01 (q : ℚ) : ℚ := min 1 (max 0 q)

/-- Number of matched indicators per sarcasm signal category. -/
structure SarcasmCounts where
  phrases : ℕ
  punct : ℕ
  caps : ℕ
  contradiction : ℕ
  exaggeration : ℕ
deriving Repr, DecidableEq

/-- Contribution of one category: a fixed weight per match, capped per
category (diminishing returns). -/
def catContribution (weight cap : ℚ) (n : ℕ) : ℚ := min cap (weight * n)

/-- Modelled from the spec: total sarcasm score — the sum of the capped
category contributions (phrases capped at 0.4, punctuation at 0.2,
capitalization at 0.2, contradiction at 0.3, exaggeration at 0.1). -/
def sarcasmScore (c : SarcasmCounts) : ℚ :=
  catContribution (1/5) (2/5) c.phrases +
  catContribution (1/10) (1/5) c.punct +
  catContribution (1/10) (1/5) c.caps +
  catContribution (3/20) (3/10) c.contradiction +
  catContribution (1/20) (1/10) c.exaggeration

/-- Modelled from the spec: sarcasm confidence — the summed category weights
clamped to the unit interval. -/
def sarcasmConfidence (c : SarcasmCounts) : ℚ := clamp01 (sarcasmScore c)

/-- Modelled from the spec: fixed sarcastic phrase list. -/
def sarcasmPhrases : List (List Char) :=
  ["great job".toList, "yeah right".toList, "oh wonderful".toList,
   "good luck with that".toList]

/-- Modelled from the spec: fixed exaggeration marker word list. -/
def exaggerationWords : List (List Char) :=
  ["literally".toList, "totally".toList, "absolutely".toList,
   "obviously".toList]

/-- Modelled from the spec: fixed positive-sentiment word list. -/
def positiveWords : List (List Char) :=
  ["great".toList, "amazing".toList, "wonderful".toList,
   "fantastic".toList, "love".toList, "good".toList]

/-- Modelled from the spec: fixed negative-sentiment word list. -/
def negativeWords : List (List Char) :=
  ["terrible".toList, "awful".toList, "stupid".toList,
   "horrible".toList, "hate".toList, "bad".toList]

/-- Boolean prefix test on character lists. -/
def isPrefB : List Char → List Char → Bool
  | [], _ => true
  | _ :: _, [] => false
  | p :: ps, c :: cs => p == c && isPrefB ps cs

/-- Number of (possibly overlapping) occurrences of a pattern. -/
def countOcc (pat : List Char) : List Char → ℕ
  | [] => 0
  | c :: cs => (if isPrefB pat (c :: cs) then 1 else 0) + countOcc pat cs

/-- Number of starts of maximal runs of `!` or `?` of length at least 3,
tracking the preceding character for maximality. -/
def punctRunsAux (prev : Option Char) : List Char → ℕ
  | a :: b :: c :: rest =>
      (if (a == '!' || a == '?') && a == b && b == c &&
          decide (prev ≠ some a)
       then 1 else 0) + punctRunsAux (some a) (b :: c :: rest)
  | _ => 0

/-- Number of maximal runs of `!` or `?` of length at least 3. -/
def punctRuns (l : List Char) : ℕ := punctRunsAux none l

/-- Number of adjacent pairs of all-caps words (capitalization category:
ALL-CAPS sequences of at least 2 consecutive words). -/
def capsPairs : List (List Char) → ℕ
  | w1 :: w2 :: rest =>
      (if (!w1.isEmpty && w1.all isUpperC) && (!w2.isEmpty && w2.all isUpperC)
       then 1 else 0) + capsPairs (w2 :: rest)
  | _ => 0

/-- Number of positive-sentiment words followed by a negative-sentiment word
within the fixed 5-token window (contradiction category). -/
def contraCount : List (List Char) → ℕ
  | [] => 0
  | w :: rest =>
      (if positiveWords.contains w &&
          (rest.take 5).any (fun v => negativeWords.contains v)
       then 1 else 0) + contraCount rest

/-- Sarcasm analysis result. -/
structure SarcasmResult where
  is_sarcastic : Bool
  confidence : ℚ
  indicators : List String
  score_breakdown : List (String × ℚ)
deriving Repr, DecidableEq

/-- Modelled from the spec: matched-indicator counts of a text for each
sarcasm signal category. -/
def sarcasmCounts (l : List Char) : SarcasmCounts :=
  let low := lowerL l
  { phrases := (sarcasmPhrases.map (fun p => countOcc p low)).sum
    punct := punctRuns l
    caps := capsPairs (wordsOf l)
    contradiction := contraCount (wordsOf low)
    exaggeration :=
      ((wordsOf low).filter (fun w => exaggerationWords.contains w)).length }

/-- Modelled from the spec: analyze_sarcasm — a pure function of the text;
category contributions are summed then clamped to the unit interval, and
`is_sarcastic` uses the documented 0.4 threshold. -/
def analyzeSarcasm (text : String) : SarcasmResult :=
  let c := sarcasmCounts text.toList
  let conf := sarcasmConfidence c
  { is_sarcastic := decide ((2 : ℚ)/5 ≤ conf)
    confidence := conf
    indicators :=
      (if c.phrases ≠ 0 then ["phrase_patterns"] else []) ++
      (if c.punct ≠ 0 then ["punctuation_patterns"] else []) ++
      (if c.caps ≠ 0 then ["capitalization_patterns"] else []) ++
      (if c.contradiction ≠ 0 then ["contradiction"] else []) ++
      (if c.exaggeration ≠ 0 then ["exaggeration"] else [])
    score_breakdown :=
      [("phrase_patterns", catContribution (1/5) (2/5) c.phrases),
       ("punctuation_patterns", catContribution (1/10) (1/5) c.punct),
       ("capitalization_patterns", catContribution (1/10) (1/5) c.caps),
       ("contradiction", catContribution (3/20) (3/10) c.contradiction),
       ("exaggeration", catContribution (1/20) (1/10) c.exaggeration)] }

/-! ## Contextual analyzer (modelled from the spec) -/

/-- Token label enumeration. -/
inductive TokLabel where
  | NEUTRAL
  | TOXIC
  | SARCASTIC
  | AGGRESSIVE
  | OFFENSIVE
  | THREATENING
  | DISCRIMINATORY
deriving Repr, DecidableEq

/-- Printable name of a token label. -/
def labelName : TokLabel → String
  | .NEUTRAL => "NEUTRAL"
  | .TOXIC => "TOXIC"
  | .SARCASTIC => "SARCASTIC"
  | .AGGRESSIVE => "AGGRESSIVE"
  | .OFFENSIVE => "OFFENSIVE"
  | .THREATENING => "THREATENING"
  | .DISCRIMINATORY => "DISCRIMINATORY"

/-- One entry of the per-token sequence labeling. -/
structure TokenLabel where
  token : String
  label : TokLabel
  confidence : ℚ
  attention_weight : ℚ
deriving Repr, DecidableEq

/-- Contextual analysis result. -/
structure ContextualResult where
  overall_toxicity : ℚ
  sequence_labels : List TokenLabel
  risk_factors : List String
deriving Repr, DecidableEq

/-- Modelled from the spec: fixed toxic/offensive/threatening lexicon of the
contextual analyzer, each entry carrying its label and base confidence. -/
def toxicLexicon : List (List Char × (TokLabel × ℚ)) :=
  [("stupid".toList, (.OFFENSIVE, 7/10)),
   ("idiot".toList, (.OFFENSIVE, 4/5)),
   ("moron".toList, (.OFFENSIVE, 3/4)),
   ("hate".toList, (.TOXIC, 3/5)),
   ("kill".toList, (.THREATENING, 9/10)),
   ("trash".toList, (.AGGRESSIVE, 1/2))]

/-- Modelled from the spec: personal-targeting pronouns. -/
def targetingPronouns : List (List Char) := ["you".toList, "your".toList]

/-- Whether the window of 2 tokens on each side of position `i` (the token
itself included) contains a personal-targeting pronoun. -/
def windowHasPronoun (toks : List (List Char)) (i : ℕ) : Bool :=
  ((toks.drop (i - 2)).take 5).any
    (fun w => targetingPronouns.contains (lowerL w))

/-- Modelled from the spec: per-token scoring — a lexicon hit assigns the
matching label and base confidence, raised (and clamped) when a
personal-targeting pronoun occurs in the context window; otherwise the token
is NEUTRAL with confidence 0.  The attention weight reuses the token's own
confidence. -/
def scoreToken (toks : List (List Char)) (i : ℕ) : TokenLabel :=
  match assocFind (lowerL (toks.getD i [])) toxicLexicon with
  | some lc =>
      ⟨String.mk (toks.getD i []), lc.1,
       (if windowHasPronoun toks i then clamp01 (lc.2 + 1/10) else lc.2),
       (if windowHasPronoun toks i then clamp01 (lc.2 + 1/10) else lc.2)⟩
  | none => ⟨String.mk (toks.getD i []), .NEUTRAL, 0, 0⟩

/-- Maximum confidence over non-NEUTRAL tokens, 0 if none (the documented
reducer choice). -/
def overallTox (labels : List TokenLabel) : ℚ :=
  labels.foldr
    (fun tl acc => if tl.label ≠ TokLabel.NEUTRAL then max tl.confidence acc
                   else acc) 0

/-- Modelled from the spec: analyze_text — deterministic per-token sequence
labeling over the whitespace tokens, with the personal-targeting risk factor
recorded when triggered. -/
def analyzeText (text : String) : ContextualResult :=
  let toks := wordsOf text.toList
  let labels := (List.range toks.length).map (fun i => scoreToken toks i)
  { overall_toxicity := overallTox labels
    sequence_labels := labels
    risk_factors :=
      if (List.range toks.length).any (fun i =>
          (assocFind (lowerL (toks.getD i [])) toxicLexicon).isSome &&
          windowHasPronoun toks i)
      then ["Personal targeting detected"] else [] }

/-! ## Aggregator (modelled from the spec) -/

/-- Fixed weight of the base classifier: 0.40. -/
def weightBase : ℚ := 2/5

/-- Fixed weight of the contextual analysis: 0.35. -/
def weightCtx : ℚ := 7/20

/-- Fixed weight of the sarcasm adjustment: 0.15. -/
def weightSarc : ℚ := 3/20

/-- Fixed weight of the normalization boost: 0.10. -/
def weightNorm : ℚ := 1/10

/-- Modelled from the spec: the (fixed weight, value) pairs of the components
present in a fusion, in the fixed order base, contextual, sarcasm,
normalization. -/
def presentComponents (base ctx sarc norm : Option ℚ) : List (ℚ × ℚ) :=
  (match base with | some v => [(weightBase, v)] | none => []) ++
  (match ctx with | some v => [(weightCtx, v)] | none => []) ++
  (match sarc with | some v => [(weightSarc, v)] | none => []) ++
  (match norm with | some v => [(weightNorm, v)] | none => [])

/-- The total fixed weight of the present components. -/
def totalWeight (base ctx sarc norm : Option ℚ) : ℚ :=
  ((presentComponents base ctx sarc norm).map Prod.fst).sum

/-- Modelled from the spec: the weights actually used by fuse — each present
component's fixed weight divided by the total present weight, which
redistributes an absent component's weight proportionally across the
remaining present components. -/
def usedWeights (base ctx sarc norm : Option ℚ) : List ℚ :=
  (presentComponents base ctx sarc norm).map
    (fun p => p.1 / totalWeight base ctx sarc norm)

/-- Modelled from the spec: fused confidence — the sum of used weight times
component value over the present components; 0 when every component is
absent. -/
def fuseConfidence (base ctx sarc norm : Option ℚ) : ℚ :=
  if totalWeight base ctx sarc norm = 0 then 0
  else ((presentComponents base ctx sarc norm).map
    (fun p => p.1 / totalWeight base ctx sarc norm * p.2)).sum

/-- Base classifier output (external collaborator). -/
structure BaseScore where
  is_toxic : Bool
  confidence : ℚ
  toxic_labels : List String
  scores : List (String × ℚ)
deriving Repr, DecidableEq

/-- Final fused output of the pipeline. -/
structure FusedResult where
  is_toxic : Bool
  confidence : ℚ
  toxic_labels : List String
  scores : List (String × ℚ)
  enhanced : Bool
  normalized_text : String
  sarcasm_analysis : Option SarcasmResult
  contextual_analysis : Option ContextualResult
deriving Repr, DecidableEq

/-- The default combined analysis threshold: 0.7. -/
def combinedThreshold : ℚ := 7/10

/-- Modelled from the spec: fuse — combine the available component results
under the fixed weights with proportional redistribution of absent weights;
the verdict is the threshold comparison `is_toxic := confidence >=
combined_threshold`. -/
def fuse (base : Option BaseScore) (nres : NormalizationResult)
    (sarc : Option SarcasmResult) (ctx : Option ContextualResult)
    (threshold : ℚ) : FusedResult :=
  let normBoost : ℚ := if nres.normalized = nres.original then 0 else 3/10
  let conf := fuseConfidence (base.map (fun b => b.confidence))
      (ctx.map (fun c => c.overall_toxicity))
      (sarc.map (fun s => s.confidence)) (some normBoost)
  { is_toxic := decide (threshold ≤ conf)
    confidence := conf
    toxic_labels :=
      ((match base with | some b => b.toxic_labels | none => []) ++
       (match ctx with
        | some c => (c.sequence_labels.filter
            (fun (tl : TokenLabel) => tl.label ≠ TokLabel.NEUTRAL)).map
              (fun (tl : TokenLabel) => labelName tl.label)
        | none => []) ++
       (match sarc with
        | some s => if s.is_sarcastic then ["SARCASTIC"] else []
        | none => [])).dedup
    scores :=
      (match base with | some b => b.scores | none => []) ++
      (match ctx with
       | some c => [("contextual", c.overall_toxicity)] | none => []) ++
      (match sarc with
       | some s => [("sarcasm", s.confidence)] | none => []) ++
      [("normalization", normBoost)]
    enhanced := sarc.isSome || ctx.isSome
    normalized_text := nres.normalized
    sarcasm_analysis := sarc
    contextual_analysis := ctx }

/-- Modelled from the spec: detect — the primary entry point: normalize, run
sarcasm and contextual analysis on the normalized text, fuse with the
(external) base classifier result; the caller's sensitivity is the combined
threshold, defaulting to 0.7. -/
def detect (text : String) (base : Option BaseScore)
    (sensitivity : ℚ := 7/10) : FusedResult :=
  let nres := normalize text
  fuse base nres (some (analyzeSarcasm nres.normalized))
    (some (analyzeText nres.normalized)) sensitivity

/-- Pipeline boundary errors. -/
inductive PipeError where
  | invalidInput
deriving Repr, DecidableEq

/-- Modelled from the spec: the pipeline boundary check — empty input is
rejected as InvalidInput before pipeline entry; the stages are only invoked
in the ok branch, so rejected input never reaches stage execution. -/
def detectChecked (text : String) (base : Option BaseScore)
    (sensitivity : ℚ := 7/10) : Except PipeError FusedResult :=
  if text = "" then .error .invalidInput
  else .ok (detect text base sensitivity)

end ToxDet

namespace ToxDet

/-! ## Helper lemmas -/

/-- A successful association lookup returns a bound pair of the list. -/
theorem assocFind_some_mem {α β : Type} [DecidableEq α] {k : α} {v : β} :
    ∀ {l : List (α × β)}, assocFind k l = some v → (k, v) ∈ l := by
  intro l
  induction l with
  | nil => intro h; simp [assocFind] at h
  | cons p rest ih =>
      intro h
      unfold assocFind at h
      by_cases hk : k = p.1
      · rw [if_pos hk] at h
        have hv : p.2 = v := Option.some.inj h
        have hkv : (k, v) = p := by rw [hk, ← hv]
        rw [hkv]
        exact List.mem_cons_self _ _
      · rw [if_neg hk] at h
        exact List.mem_cons_of_mem _ (ih h)

/-- Clamping to the unit interval is nonnegative. -/
theorem clamp01_nonneg (q : ℚ) : 0 ≤ clamp01 q :=
  le_min (by norm_num) (le_max_left _ _)

/-- Clamping to the unit interval is at most one. -/
theorem clamp01_le_one (q : ℚ) : clamp01 q ≤ 1 := min_le_left _ _

/-- Clamping is monotone. -/
theorem clamp01_mono {a b : ℚ} (h : a ≤ b) : clamp01 a ≤ clamp01 b :=
  min_le_min le_rfl (max_le_max le_rfl h)

/-- A category contribution is monotone in the number of matches. -/
theorem catContribution_mono (w cap : ℚ) (hw : 0 ≤ w) {m n : ℕ}
    (h : m ≤ n) : catContribution w cap m ≤ catContribution w cap n :=
  min_le_min le_rfl
    (mul_le_mul_of_nonneg_left (by exact_mod_cast h) hw)

/-- Division distributes over a mapped list sum. -/
theorem sum_map_div {α : Type} (l : List α) (f : α → ℚ) (c : ℚ) :
    (l.map (fun x => f x / c)).sum = (l.map f).sum / c := by
  induction l with
  | nil => simp
  | cons a t ih => simp [ih, add_div]

/-- Decomposition of membership in one optional component. -/
theorem mem_optComponent {w : ℚ} {o : Option ℚ} {p : ℚ × ℚ}
    (hp : p ∈ (match o with | some v => [(w, v)] | none => ([] : List (ℚ × ℚ)))) :
    p.1 = w ∧ p.2 ∈ o := by
  cases o with
  | none => simp at hp
  | some v =>
      simp only [List.mem_singleton] at hp
      subst hp
      exact ⟨rfl, rfl⟩

/-- Every present component carries one of the four fixed weights, and its
value comes from the corresponding option. -/
theorem presentComponents_mem {base ctx sarc norm : Option ℚ} {p : ℚ × ℚ}
    (hp : p ∈ presentComponents base ctx sarc norm) :
    (p.1 = weightBase ∧ p.2 ∈ base) ∨ (p.1 = weightCtx ∧ p.2 ∈ ctx) ∨
    (p.1 = weightSarc ∧ p.2 ∈ sarc) ∨ (p.1 = weightNorm ∧ p.2 ∈ norm) := by
  simp only [presentComponents, List.mem_append] at hp
  rcases hp with ((h | h) | h) | h
  · exact Or.inl (mem_optComponent h)
  · exact Or.inr (Or.inl (mem_optComponent h))
  · exact Or.inr (Or.inr (Or.inl (mem_optComponent h)))
  · exact Or.inr (Or.inr (Or.inr (mem_optComponent h)))

/-- Every weight of a present component is positive. -/
theorem presentComponents_weight_pos {base ctx sarc norm : Option ℚ}
    {p : ℚ × ℚ} (hp : p ∈ presentComponents base ctx sarc norm) : 0 < p.1 := by
  rcases presentComponents_mem hp with ⟨h, _⟩ | ⟨h, _⟩ | ⟨h, _⟩ | ⟨h, _⟩ <;>
    rw [h] <;> norm_num [weightBase, weightCtx, weightSarc, weightNorm]

/-- The total weight is nonnegative. -/
theorem totalWeight_nonneg (base ctx sarc norm : Option ℚ) :
    0 ≤ totalWeight base ctx sarc norm := by
  unfold totalWeight
  apply List.sum_nonneg
  intro x hx
  obtain ⟨q, hq, rfl⟩ := List.mem_map.mp hx
  exact (presentComponents_weight_pos hq).le

/-- With at least one component present, the total present weight is
positive. -/
theorem presentComponents_total_pos (base ctx sarc norm : Option ℚ)
    (h : base.isSome ∨ ctx.isSome ∨ sarc.isSome ∨ norm.isSome) :
    0 < totalWeight base ctx sarc norm := by
  rcases base with _ | vb <;> rcases ctx with _ | vc <;>
    rcases sarc with _ | vs <;> rcases norm with _ | vn <;>
    simp_all [totalWeight, presentComponents, weightBase, weightCtx,
      weightSarc, weightNorm] <;> norm_num

/-- The redistributed weights sum to exactly one whenever at least one
component is present. -/
theorem usedWeights_sum (base ctx sarc norm : Option ℚ)
    (h : base.isSome ∨ ctx.isSome ∨ sarc.isSome ∨ norm.isSome) :
    (usedWeights base ctx sarc norm).sum = 1 := by
  have htot := presentComponents_total_pos base ctx sarc norm h
  unfold usedWeights
  rw [sum_map_div]
  exact div_self (ne_of_gt htot)

/-- The fused confidence lies in the unit interval whenever every present
component value does. -/
theorem fuseConfidence_bounds (base ctx sarc norm : Option ℚ)
    (hv : ∀ p ∈ presentComponents base ctx sarc norm, 0 ≤ p.2 ∧ p.2 ≤ 1) :
    0 ≤ fuseConfidence base ctx sarc norm ∧
    fuseConfidence base ctx sarc norm ≤ 1 := by
  have hwpos : ∀ p ∈ presentComponents base ctx sarc norm, 0 < p.1 :=
    fun p hp => presentComponents_weight_pos hp
  have htotnn := totalWeight_nonneg base ctx sarc norm
  unfold fuseConfidence
  by_cases htot : totalWeight base ctx sarc norm = 0
  · rw [if_pos htot]
    norm_num
  · rw [if_neg htot]
    constructor
    · apply List.sum_nonneg
      intro x hx
      obtain ⟨p, hp, rfl⟩ := List.mem_map.mp hx
      exact mul_nonneg (div_nonneg (hwpos p hp).le htotnn) (hv p hp).1
    · have h1 : ((presentComponents base ctx sarc norm).map
          (fun p => p.1 / totalWeight base ctx sarc norm * p.2)).sum ≤
          ((presentComponents base ctx sarc norm).map
          (fun p => p.1 / totalWeight base ctx sarc norm)).sum := by
        apply List.sum_le_sum
        intro p hp
        have hnn : 0 ≤ p.1 / totalWeight base ctx sarc norm :=
          div_nonneg (hwpos p hp).le htotnn
        have h2 := mul_le_mul_of_nonneg_left (hv p hp).2 hnn
        simpa using h2
      have h2 : ((presentComponents base ctx sarc norm).map
          (fun p => p.1 / totalWeight base ctx sarc norm)).sum = 1 := by
        rw [sum_map_div]
        exact div_self htot
      exact h1.trans (le_of_eq h2)

/-- Every lexicon entry's base confidence lies in the unit interval. -/
theorem toxicLexicon_conf_bounds :
    ∀ e ∈ toxicLexicon, 0 ≤ e.2.2 ∧ e.2.2 ≤ 1 := by
  intro e he
  simp only [toxicLexicon, List.mem_cons, List.not_mem_nil, or_false] at he
  rcases he with h | h | h | h | h | h <;> rw [h] <;> norm_num

/-- Every token score lies in the unit interval, and the attention weight
equals the token confidence. -/
theorem scoreToken_conf_bounds (toks : List (List Char)) (i : ℕ) :
    0 ≤ (scoreToken toks i).confidence ∧
    (scoreToken toks i).confidence ≤ 1 ∧
    (scoreToken toks i).attention_weight = (scoreToken toks i).confidence := by
  unfold scoreToken
  cases hf : assocFind (lowerL (toks.getD i [])) toxicLexicon with
  | none => simp
  | some lc =>
      have hb := toxicLexicon_conf_bounds _ (assocFind_some_mem hf)
      by_cases hw : windowHasPronoun toks i = true
      · simp only [hw, if_true]
        exact ⟨clamp01_nonneg _, clamp01_le_one _, trivial⟩
      · rw [Bool.not_eq_true] at hw
        simp only [hw, Bool.false_eq_true, if_false]
        exact ⟨hb.1, hb.2, trivial⟩

/-- The max-over-non-neutral reducer stays in the unit interval when every
token confidence does. -/
theorem overallTox_bounds (labels : List TokenLabel)
    (h : ∀ tl ∈ labels, 0 ≤ tl.confidence ∧ tl.confidence ≤ 1) :
    0 ≤ overallTox labels ∧ overallTox labels ≤ 1 := by
  induction labels with
  | nil => simp [overallTox]
  | cons tl rest ih =>
      have hrest := ih (fun x hx => h x (List.mem_cons_of_mem _ hx))
      have htl := h tl (List.mem_cons_self _ _)
      unfold overallTox at hrest ⊢
      simp only [List.foldr_cons]
      by_cases hl : tl.label ≠ TokLabel.NEUTRAL
      · rw [if_pos hl]
        exact ⟨le_max_of_le_right hrest.1, max_le htl.2 hrest.2⟩
      · rw [if_neg hl]
        exact hrest

/-- Every sequence label of the contextual analyzer has confidence and
attention weight in the unit interval. -/
theorem analyzeText_labels_bounds (text : String) :
    ∀ tl ∈ (analyzeText text).sequence_labels,
      (0 ≤ tl.confidence ∧ tl.confidence ≤ 1) ∧
      (0 ≤ tl.attention_weight ∧ tl.attention_weight ≤ 1) := by
  intro tl htl
  have he : (analyzeText text).sequence_labels =
      (List.range (wordsOf text.toList).length).map
        (fun i => scoreToken (wordsOf text.toList) i) := rfl
  rw [he] at htl
  obtain ⟨i, _, rfl⟩ := List.mem_map.mp htl
  obtain ⟨ha, hb, hc⟩ := scoreToken_conf_bounds (wordsOf text.toList) i
  exact ⟨⟨ha, hb⟩, by rw [hc]; exact ⟨ha, hb⟩⟩

/-- The overall toxicity of the contextual analyzer lies in the unit
interval. -/
theorem analyzeText_overall_bounds (text : String) :
    0 ≤ (analyzeText text).overall_toxicity ∧
    (analyzeText text).overall_toxicity ≤ 1 := by
  have he : (analyzeText text).overall_toxicity =
      overallTox (analyzeText text).sequence_labels := rfl
  rw [he]
  exact overallTox_bounds _ (fun tl htl => (analyzeText_labels_bounds text tl htl).1)

/-- The sarcasm confidence lies in the unit interval for every text. -/
theorem analyzeSarcasm_conf_bounds (text : String) :
    0 ≤ (analyzeSarcasm text).confidence ∧
    (analyzeSarcasm text).confidence ≤ 1 :=
  ⟨clamp01_nonneg _, clamp01_le_one _⟩

/-- The fused confidence of `detect` lies in the unit interval whenever the
external base confidence does. -/
theorem detect_confidence_bounds (text : String) (base : Option BaseScore)
    (sens : ℚ) (hb : ∀ b ∈ base, 0 ≤ b.confidence ∧ b.confidence ≤ 1) :
    0 ≤ (detect text base sens).confidence ∧
    (detect text base sens).confidence ≤ 1 := by
  have he : (detect text base sens).confidence =
      fuseConfidence (base.map (fun b => b.confidence))
        (some (analyzeText (normalize text).normalized).overall_toxicity)
        (some (analyzeSarcasm (normalize text).normalized).confidence)
        (some (if (normalize text).normalized = (normalize text).original
               then 0 else 3/10)) := rfl
  rw [he]
  apply fuseConfidence_bounds
  intro p hp
  rcases presentComponents_mem hp with ⟨_, h⟩ | ⟨_, h⟩ | ⟨_, h⟩ | ⟨_, h⟩
  · rw [Option.mem_def] at h
    obtain ⟨b, hbm, hbe⟩ := Option.map_eq_some'.mp h
    rw [← hbe]
    exact hb b (by rw [hbm]; rfl)
  · rw [Option.mem_def, Option.some_inj] at h
    rw [← h]
    exact analyzeText_overall_bounds _
  · rw [Option.mem_def, Option.some_inj] at h
    rw [← h]
    exact analyzeSarcasm_conf_bounds _
  · rw [Option.mem_def, Option.some_inj] at h
    rw [← h]
    by_cases hn : (normalize text).normalized = (normalize text).original
    · rw [if_pos hn]; norm_num
    · rw [if_neg hn]; norm_num

/-- Every per-label score of the fused result lies in the unit interval
whenever the external base scores do. -/
theorem detect_scores_bounds (text : String) (base : Option BaseScore)
    (sens : ℚ)
    (hbs : ∀ b ∈ base, ∀ q ∈ b.scores, 0 ≤ q.2 ∧ q.2 ≤ 1) :
    ∀ p ∈ (detect text base sens).scores, 0 ≤ p.2 ∧ p.2 ≤ 1 := by
  intro p hp
  have he : (detect text base sens).scores =
      (match base with | some b => b.scores | none => []) ++
      [("contextual", (analyzeText (normalize text).normalized).overall_toxicity)] ++
      [("sarcasm", (analyzeSarcasm (normalize text).normalized).confidence)] ++
      [("normalization", if (normalize text).normalized = (normalize text).original
                         then 0 else 3/10)] := rfl
  rw [he] at hp
  simp only [List.mem_append, List.mem_singleton] at hp
  rcases hp with ((hp | hp) | hp) | hp
  · cases base with
    | none => simp at hp
    | some b => exact hbs b rfl p hp
  · rw [hp]
    exact analyzeText_overall_bounds _
  · rw [hp]
    exact analyzeSarcasm_conf_bounds _
  · rw [hp]
    by_cases hn : (normalize text).normalized = (normalize text).original
    · simp only [if_pos hn]; norm_num
    · simp only [if_neg hn]; norm_num

/-- All-space strings trim to the empty string. -/
theorem trimStr_eq_empty_of_wsOnly {s : String} (h : wsOnly s = true) :
    trimStr s = "" := by
  unfold wsOnly at h
  unfold trimStr trimL
  have h1 : s.toList.dropWhile isSpaceC = [] := by
    rw [List.dropWhile_eq_nil_iff]
    intro x hx
    exact (List.all_eq_true.mp h) x hx
  rw [h1]
  rfl

/-! ## Character-level lemmas for the normalizer -/

/-- Valid code points below the surrogate range round-trip through
`Char.ofNat`. -/
theorem toNat_ofNat_small {n : ℕ} (h : n < 55296) :
    (Char.ofNat n).toNat = n := by
  rw [Char.ofNat, dif_pos (Or.inl h)]
  rfl

/-- Characters with equal code points are equal. -/
theorem char_eq_of_toNat_eq {a b : Char} (h : a.toNat = b.toNat) : a = b :=
  Char.ext (UInt32.toNat.inj h)

/-- `lowerChar` fixes non-uppercase characters. -/
theorem lowerChar_eq_self {c : Char} (h : ¬(65 ≤ c.toNat ∧ c.toNat ≤ 90)) :
    lowerChar c = c := if_neg h

/-- Code point of a lowered uppercase character. -/
theorem lowerChar_toNat_of_upper {c : Char}
    (h : 65 ≤ c.toNat ∧ c.toNat ≤ 90) :
    (lowerChar c).toNat = c.toNat + 32 := by
  unfold lowerChar
  rw [if_pos h]
  exact toNat_ofNat_small (by omega)

/-- Lowercasing a character is idempotent. -/
theorem lowerChar_idem (c : Char) : lowerChar (lowerChar c) = lowerChar c := by
  by_cases h : 65 ≤ c.toNat ∧ c.toNat ≤ 90
  · have ht : (lowerChar c).toNat = c.toNat + 32 := lowerChar_toNat_of_upper h
    have h2 : ¬(65 ≤ (lowerChar c).toNat ∧ (lowerChar c).toNat ≤ 90) := by
      omega
    exact if_neg h2
  · have h1 : lowerChar c = c := lowerChar_eq_self h
    rw [h1]
    exact h1

/-- The uppercase test via code points. -/
theorem isUpperC_iff {c : Char} :
    isUpperC c = true ↔ 65 ≤ c.toNat ∧ c.toNat ≤ 90 := by
  simp [isUpperC]

/-- A lowered character is never uppercase. -/
theorem isUpperC_lowerChar (c : Char) : isUpperC (lowerChar c) = false := by
  by_cases h : 65 ≤ c.toNat ∧ c.toNat ≤ 90
  · have ht := lowerChar_toNat_of_upper h
    have : ¬(65 ≤ (lowerChar c).toNat ∧ (lowerChar c).toNat ≤ 90) := by omega
    simp [isUpperC]
    omega
  · rw [lowerChar_eq_self h]
    simp [isUpperC]
    omega

/-- Lowercasing is injective on uppercase characters. -/
theorem lowerChar_inj_upper {a b : Char} (ha : isUpperC a = true)
    (hb : isUpperC b = true) (h : lowerChar a = lowerChar b) : a = b := by
  have ha' := isUpperC_iff.mp ha
  have hb' := isUpperC_iff.mp hb
  have h1 := lowerChar_toNat_of_upper ha'
  have h2 := lowerChar_toNat_of_upper hb'
  rw [h] at h1
  exact char_eq_of_toNat_eq (by omega)

/-- Lowercasing preserves spaceness. -/
theorem isSpaceC_lowerChar (c : Char) : isSpaceC (lowerChar c) = isSpaceC c := by
  by_cases h : 65 ≤ c.toNat ∧ c.toNat ≤ 90
  · have ht := lowerChar_toNat_of_upper h
    have hsp : (' ' : Char).toNat = 32 := rfl
    have h1 : isSpaceC (lowerChar c) = false := by
      simp only [isSpaceC, beq_eq_false_iff_ne, ne_eq]
      intro heq
      rw [heq] at ht
      omega
    have h2 : isSpaceC c = false := by
      simp only [isSpaceC, beq_eq_false_iff_ne, ne_eq]
      intro heq
      rw [heq] at h
      omega
    rw [h1, h2]
  · rw [lowerChar_eq_self h]

/-- An association lookup fails exactly when the key is bound nowhere. -/
theorem assocFind_eq_none_iff {α β : Type} [DecidableEq α] (k : α)
    (l : List (α × β)) : assocFind k l = none ↔ ∀ p ∈ l, k ≠ p.1 := by
  induction l with
  | nil => simp [assocFind]
  | cons p rest ih =>
      unfold assocFind
      by_cases hk : k = p.1
      · simp [hk]
      · simp only [if_neg hk, ih, List.mem_cons]
        constructor
        · intro h q hq
          rcases hq with rfl | hq
          · exact hk
          · exact h q hq
        · intro h q hq
          exact h q (Or.inr hq)

/-! ## Collapse theory -/

/-- The head survives a cons on the last position side. -/
theorem getLast?_cons_ne {α : Type} {c : α} {cs : List α} (h : cs ≠ []) :
    (c :: cs).getLast? = cs.getLast? := by
  cases cs with
  | nil => exact absurd rfl h
  | cons d t => exact List.getLast?_cons_cons

/-- Unfolding of collapse when the collapsed tail is empty. -/
theorem collapse_eq_nil_case (c : Char) {cs : List Char}
    (h : collapse cs = []) : collapse (c :: cs) = [c] := by
  simp only [collapse, h]

/-- Unfolding of collapse when the collapsed tail is a singleton. -/
theorem collapse_eq_one (c : Char) {cs : List Char} {d : Char}
    (h : collapse cs = [d]) : collapse (c :: cs) = [c, d] := by
  simp only [collapse, h]

/-- Unfolding of collapse when the collapsed tail has at least two
characters. -/
theorem collapse_eq_two (c : Char) {cs : List Char} {d e : Char}
    {rest : List Char} (h : collapse cs = d :: e :: rest) :
    collapse (c :: cs) =
      if c == d && d == e then d :: e :: rest else c :: d :: e :: rest := by
  simp only [collapse, h]

/-- Collapsing preserves the head. -/
theorem collapse_head? : ∀ (l : List Char), (collapse l).head? = l.head?
  | [] => rfl
  | c :: cs => by
      cases hc : collapse cs with
      | nil => rw [collapse_eq_nil_case c hc]; rfl
      | cons d t =>
          cases t with
          | nil => rw [collapse_eq_one c hc]; rfl
          | cons e rest =>
              rw [collapse_eq_two c hc]
              by_cases h : (c == d && d == e) = true
              · rw [if_pos h]
                have hcd : c = d := eq_of_beq ((Bool.and_eq_true _ _).mp h).1
                rw [hcd]
                rfl
              · rw [if_neg h]
                rfl

/-- Collapsing yields the empty list only on the empty list. -/
theorem collapse_eq_nil_iff (l : List Char) : collapse l = [] ↔ l = [] := by
  constructor
  · intro h
    cases l with
    | nil => rfl
    | cons c cs =>
        have h1 := collapse_head? (c :: cs)
        rw [h] at h1
        simp at h1
  · intro h
    rw [h]
    rfl

/-- Collapsing preserves the last element. -/
theorem collapse_getLast? : ∀ (l : List Char),
    (collapse l).getLast? = l.getLast?
  | [] => rfl
  | c :: cs => by
      cases hc : collapse cs with
      | nil =>
          have hcs : cs = [] := (collapse_eq_nil_iff cs).mp hc
          subst hcs
          rfl
      | cons d t =>
          have hcs : cs ≠ [] := by
            intro hx
            subst hx
            simp [collapse] at hc
          have hrec := collapse_getLast? cs
          rw [hc] at hrec
          cases t with
          | nil =>
              rw [collapse_eq_one c hc, getLast?_cons_ne hcs, ← hrec]
              rfl
          | cons e rest =>
              rw [collapse_eq_two c hc]
              by_cases h : (c == d && d == e) = true
              · rw [if_pos h, getLast?_cons_ne hcs, ← hrec]
              · rw [if_neg h, getLast?_cons_ne hcs, ← hrec]
                exact List.getLast?_cons_cons

/-- Collapsing only drops characters. -/
theorem collapse_subset : ∀ (l : List Char), ∀ c ∈ collapse l, c ∈ l
  | [] => by simp [collapse]
  | a :: cs => by
      intro c hc
      cases hX : collapse cs with
      | nil =>
          rw [collapse_eq_nil_case a hX] at hc
          simp at hc
          rw [hc]
          exact List.mem_cons_self _ _
      | cons d t =>
          cases t with
          | nil =>
              rw [collapse_eq_one a hX] at hc
              simp at hc
              rcases hc with rfl | rfl
              · exact List.mem_cons_self _ _
              · have hd : c ∈ collapse cs := by
                  rw [hX]
                  exact List.mem_cons_self _ _
                exact List.mem_cons_of_mem _ (collapse_subset cs c hd)
          | cons e rest =>
              rw [collapse_eq_two a hX] at hc
              by_cases h : (a == d && d == e) = true
              · rw [if_pos h] at hc
                have hmem : c ∈ collapse cs := by
                  rw [hX]
                  exact hc
                exact List.mem_cons_of_mem _ (collapse_subset cs c hmem)
              · rw [if_neg h] at hc
                rcases List.mem_cons.mp hc with rfl | hc2
                · exact List.mem_cons_self _ _
                · have hmem : c ∈ collapse cs := by
                    rw [hX]
                    exact hc2
                  exact List.mem_cons_of_mem _ (collapse_subset cs c hmem)

/-- Tails of triple-free lists are triple-free. -/
theorem noTripleB_tail {a : Char} {l : List Char}
    (h : noTripleB (a :: l) = true) : noTripleB l = true := by
  cases l with
  | nil => rfl
  | cons b t =>
      cases t with
      | nil => rfl
      | cons c u =>
          simp only [noTripleB, Bool.and_eq_true] at h
          exact h.2

/-- Prepending a character different from the head preserves
triple-freeness. -/
theorem noTripleB_cons {a : Char} {l : List Char}
    (hl : noTripleB l = true) (hne : ∀ b, l.head? = some b → a ≠ b) :
    noTripleB (a :: l) = true := by
  cases l with
  | nil => rfl
  | cons b t =>
      cases t with
      | nil => rfl
      | cons c u =>
          have hab : a ≠ b := hne b rfl
          have hf : (a == b) = false := beq_eq_false_iff_ne.mpr hab
          simp only [noTripleB, Bool.and_eq_true]
          exact ⟨by simp [hf], hl⟩

/-- The collapsed list never contains three equal adjacent characters. -/
theorem noTripleB_collapse : ∀ (l : List Char), noTripleB (collapse l) = true
  | [] => rfl
  | c :: cs => by
      have ih := noTripleB_collapse cs
      cases hX : collapse cs with
      | nil => rw [collapse_eq_nil_case c hX]; rfl
      | cons d t =>
          rw [hX] at ih
          cases t with
          | nil => rw [collapse_eq_one c hX]; rfl
          | cons e rest =>
              rw [collapse_eq_two c hX]
              by_cases h : (c == d && d == e) = true
              · rw [if_pos h]
                exact ih
              · rw [if_neg h]
                have hf : (c == d && d == e) = false := Bool.eq_false_iff.mpr h
                simp only [noTripleB, Bool.and_eq_true]
                exact ⟨by simp [hf], ih⟩

/-- Triple-free lists are fixed by collapsing. -/
theorem collapse_eq_self_of_noTriple : ∀ (l : List Char),
    noTripleB l = true → collapse l = l
  | [] => fun _ => rfl
  | c :: cs => fun h => by
      have ih := collapse_eq_self_of_noTriple cs (noTripleB_tail h)
      cases cs with
      | nil => rfl
      | cons d t =>
          cases t with
          | nil => rw [collapse_eq_one c ih]
          | cons e rest =>
              rw [collapse_eq_two c ih]
              simp only [noTripleB, Bool.and_eq_true] at h
              have hf : (c == d && d == e) = false := by
                cases hb : (c == d && d == e) with
                | false => rfl
                | true =>
                    rcases h with ⟨h1, _⟩
                    rw [hb] at h1
                    simp at h1
              rw [if_neg (by simp [hf])]

/-- Tails of adjacent-duplicate-free lists are adjacent-duplicate-free. -/
theorem noAdjB_tail {a : Char} {l : List Char}
    (h : noAdjB (a :: l) = true) : noAdjB l = true := by
  cases l with
  | nil => rfl
  | cons b t =>
      simp only [noAdjB, Bool.and_eq_true] at h
      exact h.2

/-- When the collapsed list has no adjacent duplicates at all, nothing was
collapsed. -/
theorem collapse_eq_self_of_noAdj : ∀ (w : List Char),
    noAdjB (collapse w) = true → collapse w = w
  | [], _ => rfl
  | c :: cs, h => by
      cases hX : collapse cs with
      | nil =>
          have hcs : cs = [] := (collapse_eq_nil_iff cs).mp hX
          subst hcs
          rfl
      | cons d t =>
          cases t with
          | nil =>
              have hcs := collapse_eq_self_of_noAdj cs (by rw [hX]; rfl)
              rw [hX] at hcs
              rw [collapse_eq_one c hX, ← hcs]
          | cons e rest =>
              rw [collapse_eq_two c hX] at h ⊢
              by_cases hc : (c == d && d == e) = true
              · rw [if_pos hc] at h
                exfalso
                have hde : d = e := eq_of_beq ((Bool.and_eq_true _ _).mp hc).2
                simp only [noAdjB, Bool.and_eq_true] at h
                rcases h with ⟨h1, _⟩
                rw [hde] at h1
                simp at h1
              · rw [if_neg hc] at h ⊢
                have hcs := collapse_eq_self_of_noAdj cs
                  (by rw [hX]; exact noAdjB_tail h)
                rw [hX] at hcs
                rw [hcs]

/-- Adjacent-duplicate-freeness of a mapped list reflects to the original. -/
theorem noAdjB_of_map (f : Char → Char) : ∀ (l : List Char),
    noAdjB (l.map f) = true → noAdjB l = true
  | [] => fun _ => rfl
  | [a] => fun _ => rfl
  | a :: b :: t => fun h => by
      simp only [List.map_cons, noAdjB, Bool.and_eq_true] at h ⊢
      refine ⟨?_, noAdjB_of_map f (b :: t) h.2⟩
      have h1 : (f a == f b) = false := by simpa using h.1
      by_cases hab : a = b
      · rw [hab] at h1
        simp at h1
      · simp [beq_eq_false_iff_ne.mpr hab]

/-- Collapse distributes over an append whose boundary characters differ. -/
theorem collapse_append : ∀ (u v : List Char),
    (∀ a b, u.getLast? = some a → v.head? = some b → a ≠ b) →
    collapse (u ++ v) = collapse u ++ collapse v
  | [], v, _ => by simp [collapse]
  | [c], v, h => by
      have hl : [c] ++ v = c :: v := rfl
      rw [hl]
      cases hv : collapse v with
      | nil =>
          have hveq : v = [] := (collapse_eq_nil_iff v).mp hv
          subst hveq
          simp [collapse]
      | cons d t =>
          have hd : v.head? = some d := by
            rw [← collapse_head? v, hv]
            rfl
          have hcd : c ≠ d := h c d rfl hd
          cases t with
          | nil => rw [collapse_eq_one c hv]; rfl
          | cons e rest =>
              rw [collapse_eq_two c hv]
              have hf : (c == d) = false := beq_eq_false_iff_ne.mpr hcd
              rw [if_neg (by simp [hf])]
              rfl
  | c :: c' :: u', v, h => by
      have hrec := collapse_append (c' :: u') v
        (fun a b ha hb => h a b (by rw [getLast?_cons_ne (by simp)]; exact ha) hb)
      have hstep : (c :: c' :: u') ++ v = c :: ((c' :: u') ++ v) := rfl
      rw [hstep]
      cases hcu : collapse (c' :: u') with
      | nil =>
          exact absurd ((collapse_eq_nil_iff _).mp hcu) (by simp)
      | cons d t =>
          cases t with
          | cons e rest =>
              have hl : collapse ((c' :: u') ++ v) = d :: e :: (rest ++ collapse v) := by
                rw [hrec, hcu]
                rfl
              rw [collapse_eq_two c hl, collapse_eq_two c hcu]
              by_cases hce : (c == d && d == e) = true
              · rw [if_pos hce, if_pos hce]
                simp
              · rw [if_neg hce, if_neg hce]
                simp
          | nil =>
              cases hv : collapse v with
              | nil =>
                  have hl : collapse ((c' :: u') ++ v) = [d] := by
                    rw [hrec, hcu, hv]
                    rfl
                  rw [collapse_eq_one c hl, collapse_eq_one c hcu]
                  simp
              | cons e rest2 =>
                  have hdLast : (c' :: u').getLast? = some d := by
                    rw [← collapse_getLast?, hcu]
                    rfl
                  have hdLast2 : (c :: c' :: u').getLast? = some d := by
                    rw [getLast?_cons_ne (by simp)]
                    exact hdLast
                  have heHead : v.head? = some e := by
                    rw [← collapse_head?, hv]
                    rfl
                  have hde : d ≠ e := h d e hdLast2 heHead
                  have hl : collapse ((c' :: u') ++ v) = d :: e :: rest2 := by
                    rw [hrec, hcu, hv]
                    rfl
                  rw [collapse_eq_two c hl, collapse_eq_one c hcu]
                  have hf : (d == e) = false := beq_eq_false_iff_ne.mpr hde
                  rw [if_neg (by simp [hf])]
                  rfl


/-- Collapse of a constant run: capped at its first two characters. -/
theorem collapse_replicate (a : Char) : ∀ (n : ℕ),
    collapse (List.replicate n a) = List.replicate (min n 2) a
  | 0 => rfl
  | 1 => rfl
  | (n+2) => by
      have ih := collapse_replicate a (n+1)
      cases n with
      | zero => rw [List.replicate_succ, collapse_eq_one a ih]; rfl
      | succ m =>
          have hmin : min (m + 1 + 1) 2 = 2 := by omega
          rw [hmin] at ih
          have h2 : List.replicate 2 a = a :: a :: [] := rfl
          rw [h2] at ih
          rw [List.replicate_succ, collapse_eq_two a ih]
          rw [if_pos (by simp)]
          have hmin2 : min (m + 1 + 1 + 1) 2 = 2 := by omega
          rw [hmin2, h2]

/-! ## Segmentation theory -/

/-- Single-step unfolding of seg. -/
theorem seg_cons (c : Char) (cs : List Char) :
    seg (c :: cs) = segCons c (seg cs) := rfl

/-- Flattening after one block-formation step. -/
theorem flatten_segCons (c : Char) (bs : List (List Char)) :
    (segCons c bs).flatten = c :: bs.flatten := by
  cases bs with
  | nil => rfl
  | cons b bs' =>
      by_cases h : kindEq c (b.headD ' ') = true
      · simp only [segCons]
        rw [if_pos h]
        rfl
      · simp only [segCons]
        rw [if_neg h]
        rfl

/-- The blocks of a list flatten back to it. -/
theorem flatten_seg : ∀ (l : List Char), (seg l).flatten = l
  | [] => rfl
  | c :: cs => by
      rw [seg_cons, flatten_segCons, flatten_seg cs]

/-- Block formation preserves the shape invariant. -/
theorem altBlocks_segCons {c : Char} {bs : List (List Char)}
    (h : AltBlocks bs) : AltBlocks (segCons c bs) := by
  obtain ⟨hb, hch⟩ := h
  cases bs with
  | nil =>
      refine ⟨?_, ?_⟩
      · intro b hbm
        simp only [segCons, List.mem_singleton] at hbm
        subst hbm
        refine ⟨by simp, ?_⟩
        intro x hx
        simp only [List.mem_singleton] at hx
        subst hx
        rfl
      · simp [segCons]
  | cons b bs' =>
      by_cases hk : kindEq c (b.headD ' ') = true
      · have hkc : isSpaceC c = isSpaceC (b.headD ' ') := eq_of_beq hk
        have hsp : spaceBlock (c :: b) = spaceBlock b := hkc
        simp only [segCons]
        rw [if_pos hk]
        refine ⟨?_, ?_⟩
        · intro b2 hb2
          rcases List.mem_cons.mp hb2 with rfl | hb2'
          · refine ⟨by simp, ?_⟩
            intro x hx
            rcases List.mem_cons.mp hx with rfl | hx'
            · rfl
            · rw [hsp]
              exact (hb b (List.mem_cons_self _ _)).2 x hx'
          · exact hb b2 (List.mem_cons_of_mem _ hb2')
        · cases bs' with
          | nil => simp
          | cons b2 bs'' =>
              rw [List.chain'_cons] at hch ⊢
              refine ⟨?_, hch.2⟩
              rw [hsp]
              exact hch.1
      · have hkc : isSpaceC c ≠ isSpaceC (b.headD ' ') := by
          intro he
          exact hk (by simp [kindEq, he])
        simp only [segCons]
        rw [if_neg hk]
        refine ⟨?_, ?_⟩
        · intro b2 hb2
          rcases List.mem_cons.mp hb2 with rfl | hb2'
          · refine ⟨by simp, ?_⟩
            intro x hx
            simp only [List.mem_singleton] at hx
            subst hx
            rfl
          · exact hb b2 hb2'
        · rw [List.chain'_cons]
          exact ⟨hkc, hch⟩

/-- The blocks of any list satisfy the shape invariant. -/
theorem altBlocks_seg : ∀ (l : List Char), AltBlocks (seg l)
  | [] => ⟨by simp [seg], by simp [seg]⟩
  | c :: cs => by
      rw [seg_cons]
      exact altBlocks_segCons (altBlocks_seg cs)

/-- The first block starts with the first character. -/
theorem seg_cons_shape (d : Char) (vs : List Char) :
    ∃ t bs, seg (d :: vs) = (d :: t) :: bs := by
  rw [seg_cons]
  cases seg vs with
  | nil => exact ⟨[], [], rfl⟩
  | cons b bs =>
      by_cases h : kindEq d (b.headD ' ') = true
      · refine ⟨b, bs, ?_⟩
        simp only [segCons]
        rw [if_pos h]
      · refine ⟨[], b :: bs, ?_⟩
        simp only [segCons]
        rw [if_neg h]

/-- Segmenting text that starts with a full uniform block followed by text of
the opposite kind splits at the block boundary. -/
theorem seg_append_block : ∀ (x v : List Char), x ≠ [] →
    (∀ c ∈ x, isSpaceC c = spaceBlock x) →
    (∀ c, v.head? = some c → isSpaceC c ≠ spaceBlock x) →
    seg (x ++ v) = x :: seg v
  | [], _, hx, _, _ => absurd rfl hx
  | [c], v, _, _, hv => by
      cases v with
      | nil => rfl
      | cons d vs =>
          have hd : isSpaceC d ≠ spaceBlock [c] := hv d rfl
          obtain ⟨t, bs, hseg⟩ := seg_cons_shape d vs
          have hstep : [c] ++ (d :: vs) = c :: d :: vs := rfl
          rw [hstep, seg_cons, hseg]
          have hcd : isSpaceC c ≠ isSpaceC d := fun he => hd he.symm
          have hk : kindEq c ((d :: t).headD ' ') = false := by
            simp only [List.headD_cons, kindEq]
            exact beq_eq_false_iff_ne.mpr hcd
          simp only [segCons]
          rw [if_neg (by rw [hk]; exact Bool.false_ne_true), ← hseg]
  | c :: c2 :: x', v, _, hxu, hv => by
      have hc : isSpaceC c = spaceBlock (c :: c2 :: x') :=
        hxu c (by simp)
      have hc2 : isSpaceC c2 = spaceBlock (c :: c2 :: x') :=
        hxu c2 (by simp)
      have hspx : spaceBlock (c2 :: x') = spaceBlock (c :: c2 :: x') := hc2
      have ih := seg_append_block (c2 :: x') v (by simp)
        (fun d hd => by rw [hspx]; exact hxu d (List.mem_cons_of_mem _ hd))
        (fun d hd => by rw [hspx]; exact hv d hd)
      have hstep : (c :: c2 :: x') ++ v = c :: ((c2 :: x') ++ v) := rfl
      rw [hstep, seg_cons, ih]
      have hk : kindEq c ((c2 :: x').headD ' ') = true := by
        simp only [List.headD_cons, kindEq]
        exact beq_iff_eq.mpr (hc.trans hc2.symm)
      simp only [segCons]
      rw [if_pos hk]

/-- Reconstruction: segmenting the flattening of well-formed blocks recovers
exactly those blocks. -/
theorem seg_flatten_eq : ∀ (bs : List (List Char)), AltBlocks bs →
    seg bs.flatten = bs
  | [], _ => rfl
  | b :: bs, h => by
      obtain ⟨hb, hch⟩ := h
      obtain ⟨hbne, hbu⟩ := hb b (List.mem_cons_self _ _)
      have htail : AltBlocks bs :=
        ⟨fun b2 hb2 => hb b2 (List.mem_cons_of_mem _ hb2), hch.tail⟩
      have ih := seg_flatten_eq bs htail
      have hflat : (b :: bs).flatten = b ++ bs.flatten := rfl
      rw [hflat]
      have hcond : ∀ c, bs.flatten.head? = some c →
          isSpaceC c ≠ spaceBlock b := by
        intro c hch2
        cases bs with
        | nil => simp at hch2
        | cons b2 bs' =>
            obtain ⟨hb2ne, hb2u⟩ := hb b2 (by simp)
            have hh : (b2 :: bs').flatten.head? = b2.head? := by
              cases b2 with
              | nil => exact absurd rfl hb2ne
              | cons z zs => rfl
            rw [hh] at hch2
            have hcb2 : c ∈ b2 := by
              apply List.mem_of_mem_head? (l := b2) (a := c)
              rw [hch2]
              rfl
            have hcsp : isSpaceC c = spaceBlock b2 := hb2u c hcb2
            rw [List.chain'_cons] at hch
            rw [hcsp]
            exact fun he => hch.1 he.symm
      rw [seg_append_block b bs.flatten hbne hbu hcond, ih]

/-! ## Word-level lemmas -/

/-- Words are nonempty and space-free. -/
theorem wordsOf_wordish {l w : List Char} (hw : w ∈ wordsOf l) :
    w ≠ [] ∧ ∀ c ∈ w, isSpaceC c = false := by
  obtain ⟨hmem, hsp⟩ := List.mem_filter.mp hw
  obtain ⟨hne, hu⟩ := (altBlocks_seg l).1 w hmem
  refine ⟨hne, ?_⟩
  intro c hc
  rw [hu c hc]
  simpa using hsp

/-- The space-block flag of a word is false. -/
theorem wordsOf_spaceBlock {l w : List Char} (hw : w ∈ wordsOf l) :
    spaceBlock w = false := by
  obtain ⟨_, hsp⟩ := List.mem_filter.mp hw
  simpa using hsp

/-- Word characters are characters of the text. -/
theorem wordsOf_subset {l w : List Char} (hw : w ∈ wordsOf l) :
    ∀ c ∈ w, c ∈ l := by
  intro c hc
  obtain ⟨hmem, _⟩ := List.mem_filter.mp hw
  have hfl : c ∈ (seg l).flatten := List.mem_flatten.mpr ⟨w, hmem, hc⟩
  rwa [flatten_seg] at hfl

/-- A nonempty space-free token has space-block flag false. -/
theorem spaceBlock_eq_false {w : List Char} (hne : w ≠ [])
    (hsp : ∀ c ∈ w, isSpaceC c = false) : spaceBlock w = false := by
  cases w with
  | nil => exact absurd rfl hne
  | cons z zs => exact hsp z (by simp)

/-- A nonempty space-free token is its own single block. -/
theorem seg_word {w : List Char} (hne : w ≠ [])
    (hsp : ∀ c ∈ w, isSpaceC c = false) : seg w = [w] := by
  have hsb : spaceBlock w = false := spaceBlock_eq_false hne hsp
  have halt : AltBlocks [w] := by
    constructor
    · intro b hb
      rw [List.mem_singleton] at hb
      rw [hb]
      refine ⟨hne, ?_⟩
      intro x hx
      rw [hsp x hx]
      exact hsb.symm
    · simp
  have hrec := seg_flatten_eq [w] halt
  simpa using hrec

/-- The words of a nonempty space-free token. -/
theorem wordsOf_word {w : List Char} (hne : w ≠ [])
    (hsp : ∀ c ∈ w, isSpaceC c = false) : wordsOf w = [w] := by
  unfold wordsOf
  rw [seg_word hne hsp]
  simp [spaceBlock_eq_false hne hsp]

/-- mapWords is the identity when the function fixes every word. -/
theorem mapWords_id {f : List Char → List Char} {l : List Char}
    (h : ∀ w ∈ wordsOf l, f w = w) : mapWords f l = l := by
  unfold mapWords
  have hmap : ∀ b ∈ seg l, (if spaceBlock b then b else f b) = id b := by
    intro b hbm
    by_cases hsb : spaceBlock b = true
    · rw [if_pos hsb]
      rfl
    · rw [if_neg hsb]
      have hsbf : spaceBlock b = false := Bool.eq_false_iff.mpr hsb
      exact h b (List.mem_filter.mpr ⟨hbm, by simp [hsbf]⟩)
  rw [List.map_congr_left hmap, List.map_id]
  exact flatten_seg l

/-- Characters of the mapWords output come from the text or from a word
image. -/
theorem mem_mapWords {f : List Char → List Char} {l : List Char} {c : Char}
    (hc : c ∈ mapWords f l) : c ∈ l ∨ ∃ w ∈ wordsOf l, c ∈ f w := by
  unfold mapWords at hc
  obtain ⟨piece, hpiece, hcp⟩ := List.mem_flatten.mp hc
  obtain ⟨b, hbm, rfl⟩ := List.mem_map.mp hpiece
  by_cases hsb : spaceBlock b = true
  · rw [if_pos hsb] at hcp
    left
    have hfl : c ∈ (seg l).flatten := List.mem_flatten.mpr ⟨b, hbm, hcp⟩
    rwa [flatten_seg] at hfl
  · rw [if_neg hsb] at hcp
    right
    have hsbf : spaceBlock b = false := Bool.eq_false_iff.mpr hsb
    exact ⟨b, List.mem_filter.mpr ⟨hbm, by simp [hsbf]⟩, hcp⟩

/-- Block formation never yields an empty block list. -/
theorem segCons_ne_nil (c : Char) (bs : List (List Char)) :
    segCons c bs ≠ [] := by
  cases bs with
  | nil => simp [segCons]
  | cons b bs' =>
      by_cases h : kindEq c (b.headD ' ') = true
      · simp only [segCons]
        rw [if_pos h]
        simp
      · simp only [segCons]
        rw [if_neg h]
        simp

/-- Only the empty list has no blocks. -/
theorem seg_eq_nil_iff (l : List Char) : seg l = [] ↔ l = [] := by
  cases l with
  | nil => simp [seg]
  | cons c cs =>
      rw [seg_cons]
      simp [segCons_ne_nil]

/-- Head of the flattening of nonempty blocks. -/
theorem head?_flatten_blocks : ∀ (bs : List (List Char)) (b : List Char),
    bs.head? = some b → b ≠ [] → bs.flatten.head? = b.head?
  | [], _, h, _ => by simp at h
  | b2 :: bs', b, h, hne => by
      have hb : b2 = b := Option.some.inj h
      subst hb
      cases b2 with
      | nil => exact absurd rfl hne
      | cons z zs => rfl

/-- Last element of the flattening of nonempty blocks. -/
theorem getLast?_flatten_blocks : ∀ (bs : List (List Char)) (b : List Char),
    (∀ b2 ∈ bs, b2 ≠ []) → bs.getLast? = some b →
    bs.flatten.getLast? = b.getLast?
  | [], _, _, h => by simp at h
  | [b2], b, hne, h => by
      have hb : b2 = b := Option.some.inj (by simpa using h)
      subst hb
      have hflat : ([b2] : List (List Char)).flatten = b2 ++ [] := rfl
      rw [hflat, List.append_nil]
  | b2 :: b3 :: bs', b, hne, h => by
      have hlast : (b3 :: bs').getLast? = some b := by
        rw [← h]
        exact (List.getLast?_cons_cons).symm
      have ih := getLast?_flatten_blocks (b3 :: bs') b
        (fun x hx => hne x (List.mem_cons_of_mem _ hx)) hlast
      have hflat : (b2 :: b3 :: bs').flatten = b2 ++ (b3 :: bs').flatten := rfl
      rw [hflat]
      have hne3 : (b3 :: bs').flatten ≠ [] := by
        intro hz
        have hb3 : b3 ≠ [] := hne b3 (by simp)
        have : (b3 :: bs').flatten = b3 ++ bs'.flatten := rfl
        rw [this] at hz
        exact hb3 (List.append_eq_nil.mp hz).1
      rw [List.getLast?_append_of_ne_nil _ hne3]
      exact ih

/-- Flattening twice: per-piece flattening first. -/
theorem flatten_pieces (g : List Char → List (List Char)) :
    ∀ (bs : List (List Char)),
    ((bs.map g).flatten).flatten = (bs.map (fun b => (g b).flatten)).flatten
  | [] => rfl
  | b :: bs' => by
      have h1 : ((b :: bs').map g).flatten = g b ++ (bs'.map g).flatten := rfl
      rw [h1, List.flatten_append]
      have h2 : ((b :: bs').map (fun b2 => (g b2).flatten)).flatten =
          (g b).flatten ++ ((bs'.map (fun b2 => (g b2).flatten)).flatten) := rfl
      rw [h2, flatten_pieces g bs']

/-- Appending block lists with opposite boundary kinds preserves the shape
invariant. -/
theorem altBlocks_append {bs1 bs2 : List (List Char)}
    (h1 : AltBlocks bs1) (h2 : AltBlocks bs2)
    (hbd : ∀ b1 b2, bs1.getLast? = some b1 → bs2.head? = some b2 →
      spaceBlock b1 ≠ spaceBlock b2) :
    AltBlocks (bs1 ++ bs2) := by
  obtain ⟨hm1, hc1⟩ := h1
  obtain ⟨hm2, hc2⟩ := h2
  constructor
  · intro b hb
    rcases List.mem_append.mp hb with h | h
    · exact hm1 b h
    · exact hm2 b h
  · apply List.Chain'.append hc1 hc2
    intro x hx y hy
    exact hbd x y (Option.mem_def.mp hx) (Option.mem_def.mp hy)

/-- The block piece of one original block is never empty. -/
theorem piece_ne_nil {f : List Char → List Char} {b : List Char}
    (hb : spaceBlock b = false → f b ≠ []) :
    (if spaceBlock b then [b] else seg (f b)) ≠ [] := by
  by_cases hsb : spaceBlock b = true
  · rw [if_pos hsb]
    simp
  · rw [if_neg hsb]
    intro hz
    exact hb (Bool.eq_false_iff.mpr hsb) ((seg_eq_nil_iff _).mp hz)

/-- The first block of a piece has the original block's kind. -/
theorem piece_head_kind {f : List Char → List Char} {b : List Char}
    (_hbne : b ≠ []) (_hbu : ∀ x ∈ b, isSpaceC x = spaceBlock b)
    (hf : spaceBlock b = false → f b ≠ [] ∧
      (∀ c, (f b).head? = some c → isSpaceC c = false)) :
    ∀ bh, (if spaceBlock b then [b] else seg (f b)).head? = some bh →
      spaceBlock bh = spaceBlock b := by
  intro bh hbh
  by_cases hsb : spaceBlock b = true
  · rw [if_pos hsb] at hbh
    obtain rfl : b = bh := Option.some.inj hbh
    rfl
  · rw [if_neg hsb] at hbh
    have hsbf : spaceBlock b = false := Bool.eq_false_iff.mpr hsb
    obtain ⟨hfne, hfh⟩ := hf hsbf
    cases hfb : f b with
    | nil => exact absurd hfb hfne
    | cons d vs =>
        obtain ⟨t, bs2, hseg⟩ := seg_cons_shape d vs
        rw [hfb, hseg] at hbh
        obtain rfl : d :: t = bh := Option.some.inj hbh
        have hd : isSpaceC d = false := hfh d (by rw [hfb]; rfl)
        rw [hsbf]
        exact hd

/-- The last block of a piece has the original block's kind. -/
theorem piece_last_kind {f : List Char → List Char} {b : List Char}
    (_hbne : b ≠ []) (_hbu : ∀ x ∈ b, isSpaceC x = spaceBlock b)
    (hf : spaceBlock b = false → f b ≠ [] ∧
      (∀ c, (f b).getLast? = some c → isSpaceC c = false)) :
    ∀ bl, (if spaceBlock b then [b] else seg (f b)).getLast? = some bl →
      spaceBlock bl = spaceBlock b := by
  intro bl hbl
  by_cases hsb : spaceBlock b = true
  · rw [if_pos hsb] at hbl
    obtain rfl : b = bl := Option.some.inj (by simpa using hbl)
    rfl
  · rw [if_neg hsb] at hbl
    have hsbf : spaceBlock b = false := Bool.eq_false_iff.mpr hsb
    obtain ⟨hfne, hfl⟩ := hf hsbf
    have halt := altBlocks_seg (f b)
    have hblmem : bl ∈ seg (f b) := List.mem_of_getLast?_eq_some hbl
    obtain ⟨hblne, hblu⟩ := halt.1 bl hblmem
    have hlast : (seg (f b)).flatten.getLast? = bl.getLast? :=
      getLast?_flatten_blocks (seg (f b)) bl
        (fun b2 hb2 => (halt.1 b2 hb2).1) hbl
    rw [flatten_seg] at hlast
    cases hz : (f b).getLast? with
    | none => exact absurd ((List.getLast?_eq_none_iff).mp hz) hfne
    | some z =>
        have hzmem : z ∈ bl := by
          apply List.mem_of_getLast?_eq_some
          rw [← hlast, hz]
        have hzs : isSpaceC z = false := hfl z hz
        rw [hsbf, ← hzs]
        exact (hblu z hzmem).symm

/-- The flattened pieces of a word pass satisfy the shape invariant. -/
theorem altBlocks_flatten_pieces (f : List Char → List Char) :
    ∀ (bs : List (List Char)), AltBlocks bs →
    (∀ b ∈ bs, spaceBlock b = false → f b ≠ [] ∧
      (∀ c, (f b).head? = some c → isSpaceC c = false) ∧
      (∀ c, (f b).getLast? = some c → isSpaceC c = false)) →
    AltBlocks
      ((bs.map (fun b => if spaceBlock b then [b] else seg (f b))).flatten)
  | [], _, _ => ⟨by simp, by simp⟩
  | b :: bs', halt, hf => by
      obtain ⟨hm, hc⟩ := halt
      obtain ⟨hbne, hbu⟩ := hm b (List.mem_cons_self _ _)
      have htail : AltBlocks bs' :=
        ⟨fun b2 hb2 => hm b2 (List.mem_cons_of_mem _ hb2), hc.tail⟩
      have ih := altBlocks_flatten_pieces f bs' htail
        (fun b2 hb2 => hf b2 (List.mem_cons_of_mem _ hb2))
      have hpieceAlt : AltBlocks (if spaceBlock b then [b] else seg (f b)) := by
        by_cases hsb : spaceBlock b = true
        · rw [if_pos hsb]
          refine ⟨?_, by simp⟩
          intro b2 hb2
          rw [List.mem_singleton] at hb2
          rw [hb2]
          exact ⟨hbne, hbu⟩
        · rw [if_neg hsb]
          exact altBlocks_seg (f b)
      have hflat : ((b :: bs').map
          (fun b2 => if spaceBlock b2 then [b2] else seg (f b2))).flatten =
          (if spaceBlock b then [b] else seg (f b)) ++
          ((bs'.map (fun b2 => if spaceBlock b2 then [b2] else seg (f b2))).flatten) := rfl
      rw [hflat]
      apply altBlocks_append hpieceAlt ih
      intro b1 b2 hb1 hb2
      have hfb := hf b (List.mem_cons_self _ _)
      have hk1 : spaceBlock b1 = spaceBlock b :=
        piece_last_kind hbne hbu
          (fun hs => ⟨(hfb hs).1, (hfb hs).2.2⟩) b1 hb1
      cases bs' with
      | nil => simp at hb2
      | cons bNext bs'' =>
          obtain ⟨hNne, hNu⟩ := hm bNext (by simp)
          have hfN := hf bNext (by simp)
          have hpN : (if spaceBlock bNext then [bNext] else seg (f bNext)) ≠ [] :=
            piece_ne_nil (fun hs => (hfN hs).1)
          have hh : ((bNext :: bs'').map
              (fun b2 => if spaceBlock b2 then [b2] else seg (f b2))).flatten.head? =
              (if spaceBlock bNext then [bNext] else seg (f bNext)).head? := by
            have hstep : ((bNext :: bs'').map
                (fun b2 => if spaceBlock b2 then [b2] else seg (f b2))).flatten =
                (if spaceBlock bNext then [bNext] else seg (f bNext)) ++
                ((bs''.map (fun b2 => if spaceBlock b2 then [b2] else seg (f b2))).flatten) := rfl
            rw [hstep]
            exact List.head?_append_of_ne_nil _ hpN
          rw [hh] at hb2
          have hk2 : spaceBlock b2 = spaceBlock bNext :=
            piece_head_kind hNne hNu
              (fun hs => ⟨(hfN hs).1, (hfN hs).2.1⟩) b2 hb2
          rw [hk1, hk2]
          rw [List.chain'_cons] at hc
          exact hc.1

/-- The blocks of a word-pass output are the per-block pieces. -/
theorem seg_mapWords {f : List Char → List Char} {l : List Char}
    (hf : ∀ w ∈ wordsOf l, f w ≠ [] ∧
      (∀ c, (f w).head? = some c → isSpaceC c = false) ∧
      (∀ c, (f w).getLast? = some c → isSpaceC c = false)) :
    seg (mapWords f l) =
      ((seg l).map (fun b => if spaceBlock b then [b] else seg (f b))).flatten := by
  have hf' : ∀ b ∈ seg l, spaceBlock b = false → f b ≠ [] ∧
      (∀ c, (f b).head? = some c → isSpaceC c = false) ∧
      (∀ c, (f b).getLast? = some c → isSpaceC c = false) := by
    intro b hb hsb
    exact hf b (List.mem_filter.mpr ⟨hb, by simp [hsb]⟩)
  have hflat : (((seg l).map
      (fun b => if spaceBlock b then [b] else seg (f b))).flatten).flatten =
      mapWords f l := by
    rw [flatten_pieces]
    unfold mapWords
    congr 1
    apply List.map_congr_left
    intro b hb
    by_cases hsb : spaceBlock b = true
    · rw [if_pos hsb, if_pos hsb]
      simp
    · rw [if_neg hsb, if_neg hsb]
      exact flatten_seg (f b)
  calc seg (mapWords f l)
      = seg (((seg l).map
          (fun b => if spaceBlock b then [b] else seg (f b))).flatten).flatten := by
        rw [hflat]
    _ = ((seg l).map (fun b => if spaceBlock b then [b] else seg (f b))).flatten :=
        seg_flatten_eq _ (altBlocks_flatten_pieces f (seg l) (altBlocks_seg l) hf')

/-- Dropping pieces mapped to nothing. -/
theorem flatten_map_skip {α : Type} (p : List Char → Bool)
    (g : List Char → List α) :
    ∀ (bs : List (List Char)), (∀ b ∈ bs, p b = false → g b = []) →
    (bs.map g).flatten = ((bs.filter p).map g).flatten
  | [], _ => rfl
  | b :: bs', h => by
      have ih := flatten_map_skip p g bs'
        (fun b2 hb2 => h b2 (List.mem_cons_of_mem _ hb2))
      by_cases hp : p b = true
      · rw [List.filter_cons_of_pos hp]
        have h1 : ((b :: bs').map g).flatten = g b ++ (bs'.map g).flatten := rfl
        have h2 : ((b :: (bs'.filter p)).map g).flatten =
            g b ++ ((bs'.filter p).map g).flatten := rfl
        rw [h1, h2, ih]
      · have hpf : p b = false := Bool.eq_false_iff.mpr hp
        rw [List.filter_cons_of_neg (by simp [hpf])]
        have h1 : ((b :: bs').map g).flatten = g b ++ (bs'.map g).flatten := rfl
        rw [h1, h b (List.mem_cons_self _ _) hpf, List.nil_append, ih]

/-- Flattening singletons is mapping. -/
theorem flatten_map_singleton {α β : Type} (f : α → β) :
    ∀ (l : List α), (l.map (fun x => [f x])).flatten = l.map f
  | [] => rfl
  | x :: xs => by
      have h1 : ((x :: xs).map (fun y => [f y])).flatten =
          [f x] ++ (xs.map (fun y => [f y])).flatten := rfl
      rw [h1, flatten_map_singleton f xs]
      rfl

/-- The words of a word-pass output are the words of the per-word images, in
order. -/
theorem wordsOf_mapWords {f : List Char → List Char} {l : List Char}
    (hf : ∀ w ∈ wordsOf l, f w ≠ [] ∧
      (∀ c, (f w).head? = some c → isSpaceC c = false) ∧
      (∀ c, (f w).getLast? = some c → isSpaceC c = false)) :
    wordsOf (mapWords f l) =
      ((wordsOf l).map (fun w => wordsOf (f w))).flatten := by
  have h0 : wordsOf (mapWords f l) =
      (seg (mapWords f l)).filter (fun b => !spaceBlock b) := rfl
  rw [h0, seg_mapWords hf, List.filter_flatten, List.map_map]
  have h1 : ((seg l).map
      ((List.filter (fun b => !spaceBlock b)) ∘
        (fun b => if spaceBlock b then [b] else seg (f b)))).flatten =
      ((seg l).map (fun b => if spaceBlock b then [] else wordsOf (f b))).flatten := by
    congr 1
    apply List.map_congr_left
    intro b hb
    by_cases hsb : spaceBlock b = true
    · simp only [Function.comp]
      rw [if_pos hsb, if_pos hsb]
      simp [hsb]
    · simp only [Function.comp]
      rw [if_neg hsb, if_neg hsb]
      rfl
  rw [h1]
  rw [flatten_map_skip (fun b => !spaceBlock b)
    (fun b => if spaceBlock b then [] else wordsOf (f b)) (seg l) ?hskip]
  case hskip =>
    intro b hb hpb
    have hsb : spaceBlock b = true := by simpa using hpb
    show (if spaceBlock b = true then [] else wordsOf (f b)) = []
    rw [if_pos hsb]
  have h2 : (seg l).filter (fun b => !spaceBlock b) = wordsOf l := rfl
  rw [h2]
  congr 1
  apply List.map_congr_left
  intro w hw
  show (if spaceBlock w = true then [] else wordsOf (f w)) = wordsOf (f w)
  rw [if_neg (by simp [wordsOf_spaceBlock hw])]

/-- For word images that are themselves single space-free tokens, the words
of the output are the mapped words. -/
theorem wordsOf_mapWords_samekind {f : List Char → List Char} {l : List Char}
    (hf : ∀ w ∈ wordsOf l, f w ≠ [] ∧ ∀ c ∈ f w, isSpaceC c = false) :
    wordsOf (mapWords f l) = (wordsOf l).map f := by
  have hf' : ∀ w ∈ wordsOf l, f w ≠ [] ∧
      (∀ c, (f w).head? = some c → isSpaceC c = false) ∧
      (∀ c, (f w).getLast? = some c → isSpaceC c = false) := by
    intro w hw
    obtain ⟨hne, hsp⟩ := hf w hw
    exact ⟨hne,
      fun c hc => hsp c (List.mem_of_mem_head? (by rw [hc]; rfl)),
      fun c hc => hsp c (List.mem_of_getLast?_eq_some hc)⟩
  rw [wordsOf_mapWords hf']
  have h1 : (wordsOf l).map (fun w => wordsOf (f w)) =
      (wordsOf l).map (fun w => [f w]) := by
    apply List.map_congr_left
    intro w hw
    exact wordsOf_word (hf w hw).1 (hf w hw).2
  rw [h1, flatten_map_singleton]

/-! ## Triple-freeness over blocks -/

/-- One-step unfolding of triple-freeness. -/
theorem noTripleB_cons3 (a b c : Char) (t : List Char) :
    noTripleB (a :: b :: c :: t) =
      (!(a == b && b == c) && noTripleB (b :: c :: t)) := rfl

/-- Triple-freeness restricts to a prefix. -/
theorem noTripleB_append_left : ∀ (u v : List Char),
    noTripleB (u ++ v) = true → noTripleB u = true
  | [], _, _ => rfl
  | [_], _, _ => rfl
  | [_, _], _, _ => rfl
  | a :: b :: c :: u', v, h => by
      have hstep : (a :: b :: c :: u') ++ v = a :: b :: c :: (u' ++ v) := rfl
      rw [hstep, noTripleB_cons3, Bool.and_eq_true] at h
      rw [noTripleB_cons3, Bool.and_eq_true]
      exact ⟨h.1, noTripleB_append_left (b :: c :: u') v h.2⟩

/-- Triple-freeness restricts to a suffix. -/
theorem noTripleB_append_right : ∀ (u v : List Char),
    noTripleB (u ++ v) = true → noTripleB v = true
  | [], _, h => h
  | a :: u', v, h =>
      noTripleB_append_right u' v (noTripleB_tail (a := a) h)

/-- Triple-freeness composes across a boundary of distinct characters. -/
theorem noTripleB_append : ∀ (u v : List Char), noTripleB u = true →
    noTripleB v = true →
    (∀ a b, u.getLast? = some a → v.head? = some b → a ≠ b) →
    noTripleB (u ++ v) = true
  | [], _, _, hv, _ => hv
  | [a], v, _, hv, hb =>
      noTripleB_cons hv (fun b hbv => hb a b rfl hbv)
  | [a, a2], v, hu, hv, hb => by
      have h2 : noTripleB (a2 :: v) = true :=
        noTripleB_cons hv (fun b hbv => hb a2 b rfl hbv)
      cases v with
      | nil => simpa using hu
      | cons c w =>
          have hstep : ([a, a2] : List Char) ++ (c :: w) =
              a :: a2 :: c :: w := rfl
          rw [hstep, noTripleB_cons3, Bool.and_eq_true]
          refine ⟨?_, h2⟩
          have hac : a2 ≠ c := hb a2 c rfl rfl
          have hf : (a2 == c) = false := beq_eq_false_iff_ne.mpr hac
          simp [hf]
  | a :: b :: c :: u', v, hu, hv, hb => by
      rw [noTripleB_cons3, Bool.and_eq_true] at hu
      have hrec := noTripleB_append (b :: c :: u') v hu.2 hv
        (fun x y hx hy =>
          hb x y (by rw [getLast?_cons_ne (by simp)]; exact hx) hy)
      have hstep : (a :: b :: c :: u') ++ v = a :: b :: c :: (u' ++ v) := rfl
      rw [hstep, noTripleB_cons3, Bool.and_eq_true]
      exact ⟨hu.1, hrec⟩

/-- The flattening of triple-free well-formed blocks is triple-free. -/
theorem noTripleB_flatten_blocks : ∀ (bs : List (List Char)), AltBlocks bs →
    (∀ b ∈ bs, noTripleB b = true) → noTripleB bs.flatten = true
  | [], _, _ => rfl
  | b :: bs', halt, h => by
      obtain ⟨hm, hc⟩ := halt
      have htail : AltBlocks bs' :=
        ⟨fun x hx => hm x (List.mem_cons_of_mem _ hx), hc.tail⟩
      have ih := noTripleB_flatten_blocks bs' htail
        (fun x hx => h x (List.mem_cons_of_mem _ hx))
      have hflat : (b :: bs').flatten = b ++ bs'.flatten := rfl
      rw [hflat]
      apply noTripleB_append b bs'.flatten (h b (List.mem_cons_self _ _)) ih
      intro x y hx hy
      cases bs' with
      | nil => simp at hy
      | cons b2 bs'' =>
          obtain ⟨hb2ne, hb2u⟩ := hm b2 (by simp)
          have hh : (b2 :: bs'').flatten.head? = b2.head? :=
            head?_flatten_blocks _ b2 rfl hb2ne
          rw [hh] at hy
          have hymem : y ∈ b2 := List.mem_of_mem_head? (by rw [hy]; rfl)
          obtain ⟨hbne, hbu⟩ := hm b (List.mem_cons_self _ _)
          have hxmem : x ∈ b := List.mem_of_getLast?_eq_some hx
          have hxk : isSpaceC x = spaceBlock b := hbu x hxmem
          have hyk : isSpaceC y = spaceBlock b2 := hb2u y hymem
          rw [List.chain'_cons] at hc
          intro he
          apply hc.1
          rw [← hxk, ← hyk, he]

/-- Every block of a triple-free flattening is triple-free. -/
theorem noTripleB_block {bs : List (List Char)} {b : List Char}
    (hb : b ∈ bs) (h : noTripleB bs.flatten = true) : noTripleB b = true := by
  obtain ⟨s, t, rfl⟩ := List.append_of_mem hb
  have hflat : (s ++ b :: t).flatten = s.flatten ++ (b ++ t.flatten) := by
    rw [List.flatten_append]
    rfl
  rw [hflat] at h
  exact noTripleB_append_left b t.flatten
    (noTripleB_append_right s.flatten _ h)

/-- Lowercasing an all-uppercase word preserves triple-freeness. -/
theorem noTripleB_lowerL_of_upper : ∀ (w : List Char),
    (∀ c ∈ w, isUpperC c = true) → noTripleB w = true →
    noTripleB (lowerL w) = true
  | [], _, _ => rfl
  | [_], _, _ => rfl
  | [_, _], _, _ => rfl
  | a :: b :: c :: t, hup, h => by
      rw [noTripleB_cons3, Bool.and_eq_true] at h
      have ih := noTripleB_lowerL_of_upper (b :: c :: t)
        (fun x hx => hup x (List.mem_cons_of_mem _ hx)) h.2
      show noTripleB
        (lowerChar a :: lowerChar b :: lowerChar c :: List.map lowerChar t) = true
      rw [noTripleB_cons3, Bool.and_eq_true]
      refine ⟨?_, ih⟩
      by_cases hab : lowerChar a = lowerChar b
      · have hab' : a = b :=
          lowerChar_inj_upper (hup a (by simp)) (hup b (by simp)) hab
        by_cases hbc : lowerChar b = lowerChar c
        · have hbc' : b = c :=
            lowerChar_inj_upper (hup b (by simp)) (hup c (by simp)) hbc
          exfalso
          have h1 := h.1
          rw [hab', hbc'] at h1
          simp at h1
        · have hf : (lowerChar b == lowerChar c) = false :=
            beq_eq_false_iff_ne.mpr hbc
          simp [hf]
      · have hf : (lowerChar a == lowerChar b) = false :=
          beq_eq_false_iff_ne.mpr hab
        simp [hf]

/-- For single-token word images, the blocks of the output are the mapped
blocks. -/
theorem seg_mapWords_samekind {f : List Char → List Char} {l : List Char}
    (hf : ∀ w ∈ wordsOf l, f w ≠ [] ∧ ∀ c ∈ f w, isSpaceC c = false) :
    seg (mapWords f l) =
      (seg l).map (fun b => if spaceBlock b then b else f b) := by
  have hf' : ∀ w ∈ wordsOf l, f w ≠ [] ∧
      (∀ c, (f w).head? = some c → isSpaceC c = false) ∧
      (∀ c, (f w).getLast? = some c → isSpaceC c = false) := by
    intro w hw
    obtain ⟨hne, hsp⟩ := hf w hw
    exact ⟨hne,
      fun c hc => hsp c (List.mem_of_mem_head? (by rw [hc]; rfl)),
      fun c hc => hsp c (List.mem_of_getLast?_eq_some hc)⟩
  rw [seg_mapWords hf']
  have h1 : (seg l).map (fun b => if spaceBlock b then [b] else seg (f b)) =
      (seg l).map (fun b => [if spaceBlock b then b else f b]) := by
    apply List.map_congr_left
    intro b hb
    by_cases hsb : spaceBlock b = true
    · rw [if_pos hsb, if_pos hsb]
    · rw [if_neg hsb, if_neg hsb]
      have hw : b ∈ wordsOf l :=
        List.mem_filter.mpr ⟨hb, by simp [Bool.eq_false_iff.mpr hsb]⟩
      exact seg_word (hf b hw).1 (hf b hw).2
  rw [h1, flatten_map_singleton (fun b => if spaceBlock b then b else f b)]

/-- A same-kind word pass preserves triple-freeness when it preserves it on
each word. -/
theorem noTripleB_mapWords_samekind {f : List Char → List Char}
    {l : List Char}
    (hf : ∀ w ∈ wordsOf l, f w ≠ [] ∧ ∀ c ∈ f w, isSpaceC c = false)
    (hpres : ∀ w ∈ wordsOf l, noTripleB w = true → noTripleB (f w) = true)
    (h : noTripleB l = true) : noTripleB (mapWords f l) = true := by
  rw [← flatten_seg (mapWords f l)]
  apply noTripleB_flatten_blocks _ (altBlocks_seg _)
  intro b hb
  rw [seg_mapWords_samekind hf] at hb
  obtain ⟨b0, hb0, rfl⟩ := List.mem_map.mp hb
  have hb0triple : noTripleB b0 = true := by
    apply noTripleB_block hb0
    rw [flatten_seg]
    exact h
  by_cases hsb : spaceBlock b0 = true
  · rw [if_pos hsb]
    exact hb0triple
  · rw [if_neg hsb]
    have hw : b0 ∈ wordsOf l :=
      List.mem_filter.mpr ⟨hb0, by simp [Bool.eq_false_iff.mpr hsb]⟩
    exact hpres b0 hw hb0triple

/-! ## Normalizer dictionary facts (checked by computation) -/

/-- Emoji descriptions contain no known emoji. -/
theorem emojiTable_desc_clean :
    ∀ p ∈ emojiTable, ∀ c ∈ p.2, assocFind c emojiTable = none := by decide

/-- Known emoji are not lowercase ASCII letters. -/
theorem emojiTable_keys_not_ascii :
    ∀ p ∈ emojiTable, ¬(97 ≤ p.1.toNat ∧ p.1.toNat ≤ 122) := by decide

/-- Slang and misspelling dictionary values contain no known emoji. -/
theorem dict_values_emoji_clean :
    (∀ p ∈ slangTable, ∀ c ∈ p.2, assocFind c emojiTable = none) ∧
    (∀ p ∈ misspellTable, ∀ c ∈ p.2, assocFind c emojiTable = none) := by
  decide

/-- Dictionary keys have no two adjacent equal characters. -/
theorem dict_keys_noAdj :
    (∀ p ∈ slangTable, noAdjB p.1 = true) ∧
    (∀ p ∈ misspellTable, noAdjB p.1 = true) := by decide

/-- Words of slang values hit neither dictionary. -/
theorem slangValues_words_clean : ∀ p ∈ slangTable, ∀ w ∈ wordsOf p.2,
    assocFind (lowerL w) slangTable = none ∧
    assocFind (lowerL w) misspellTable = none := by decide

/-- Words of misspelling corrections hit neither dictionary. -/
theorem missValues_words_clean : ∀ p ∈ misspellTable, ∀ w ∈ wordsOf p.2,
    assocFind (lowerL w) slangTable = none ∧
    assocFind (lowerL w) misspellTable = none := by decide

/-- Slang values are nonempty with space-free boundary characters. -/
theorem slangTable_values_shape : ∀ p ∈ slangTable, p.2 ≠ [] ∧
    isSpaceC (p.2.headD 'x') = false ∧
    isSpaceC (p.2.getLastD 'x') = false := by decide

/-- Misspelling corrections are nonempty with space-free boundary
characters. -/
theorem missTable_values_shape : ∀ p ∈ misspellTable, p.2 ≠ [] ∧
    isSpaceC (p.2.headD 'x') = false ∧
    isSpaceC (p.2.getLastD 'x') = false := by decide

/-! ## Normalizer pass lemmas -/

/-- The emoji pass output contains no known emoji. -/
theorem emojiPass_clean : ∀ (l : List Char), ∀ c ∈ emojiPass l,
    assocFind c emojiTable = none
  | [] => by simp [emojiPass]
  | c0 :: cs => by
      intro c hc
      cases hfind : assocFind c0 emojiTable with
      | some desc =>
          have he : emojiPass (c0 :: cs) = desc ++ emojiPass cs := by
            simp only [emojiPass, hfind]
          rw [he] at hc
          rcases List.mem_append.mp hc with h | h
          · exact emojiTable_desc_clean _ (assocFind_some_mem hfind) c h
          · exact emojiPass_clean cs c h
      | none =>
          have he : emojiPass (c0 :: cs) = c0 :: emojiPass cs := by
            simp only [emojiPass, hfind]
          rw [he] at hc
          rcases List.mem_cons.mp hc with rfl | h
          · exact hfind
          · exact emojiPass_clean cs c h

/-- The emoji pass is the identity on emoji-free text. -/
theorem emojiPass_id : ∀ (l : List Char),
    (∀ c ∈ l, assocFind c emojiTable = none) → emojiPass l = l
  | [] => fun _ => rfl
  | c0 :: cs => fun h => by
      have h0 := h c0 (List.mem_cons_self _ _)
      have he : emojiPass (c0 :: cs) = c0 :: emojiPass cs := by
        simp only [emojiPass, h0]
      rw [he, emojiPass_id cs (fun c hc => h c (List.mem_cons_of_mem _ hc))]

/-- Lowercase ASCII characters are not emoji keys. -/
theorem assocFind_emoji_ascii {c : Char}
    (h : 97 ≤ c.toNat ∧ c.toNat ≤ 122) :
    assocFind c emojiTable = none := by
  rw [assocFind_eq_none_iff]
  intro p hp he
  exact emojiTable_keys_not_ascii p hp (he ▸ h)

/-- Characters of a dictionary-rewritten word come from the word or a
dictionary value. -/
theorem dictWord_chars (tbl : List (List Char × List Char)) (w : List Char) :
    ∀ c ∈ dictWord tbl w, c ∈ w ∨ ∃ p ∈ tbl, c ∈ p.2 := by
  cases hfind : assocFind (lowerL w) tbl with
  | some repl =>
      have he : dictWord tbl w = repl := by simp only [dictWord, hfind]
      rw [he]
      intro c hc
      exact Or.inr ⟨(lowerL w, repl), assocFind_some_mem hfind, hc⟩
  | none =>
      have he : dictWord tbl w = w := by simp only [dictWord, hfind]
      rw [he]
      intro c hc
      exact Or.inl hc

/-- The head default agrees with a known head. -/
theorem headD_eq_of_head? {l : List Char} {c : Char} (h : l.head? = some c)
    (d : Char) : l.headD d = c := by
  rw [List.headD_eq_head?_getD, h]
  rfl

/-- The last default agrees with a known last element. -/
theorem getLastD_eq_of_getLast? {l : List Char} {c : Char}
    (h : l.getLast? = some c) (d : Char) : l.getLastD d = c := by
  rw [List.getLastD_eq_getLast?, h]
  rfl

/-- A dictionary rewrite of a word is nonempty with space-free boundary
characters. -/
theorem dictWord_image_conds {tbl : List (List Char × List Char)}
    (htbl : ∀ p ∈ tbl, p.2 ≠ [] ∧ isSpaceC (p.2.headD 'x') = false ∧
      isSpaceC (p.2.getLastD 'x') = false)
    {w : List Char} (hne : w ≠ []) (hsp : ∀ c ∈ w, isSpaceC c = false) :
    dictWord tbl w ≠ [] ∧
    (∀ c, (dictWord tbl w).head? = some c → isSpaceC c = false) ∧
    (∀ c, (dictWord tbl w).getLast? = some c → isSpaceC c = false) := by
  cases hfind : assocFind (lowerL w) tbl with
  | some repl =>
      have he : dictWord tbl w = repl := by simp only [dictWord, hfind]
      obtain ⟨h1, h2, h3⟩ := htbl _ (assocFind_some_mem hfind)
      rw [he]
      refine ⟨h1, ?_, ?_⟩
      · intro c hc
        rw [← headD_eq_of_head? hc 'x']
        exact h2
      · intro c hc
        rw [← getLastD_eq_of_getLast? hc 'x']
        exact h3
  | none =>
      have he : dictWord tbl w = w := by simp only [dictWord, hfind]
      rw [he]
      exact ⟨hne,
        fun c hc => hsp c (List.mem_of_mem_head? (by rw [hc]; rfl)),
        fun c hc => hsp c (List.mem_of_getLast?_eq_some hc)⟩

/-- Characters of a case-normalized word are original or lowercase ASCII. -/
theorem shoutWord_chars (w : List Char) :
    ∀ c ∈ shoutWord w, c ∈ w ∨ (97 ≤ c.toNat ∧ c.toNat ≤ 122) := by
  unfold shoutWord
  by_cases hs : isShout w = true
  · rw [if_pos hs]
    intro c hc
    obtain ⟨c0, hc0, rfl⟩ := List.mem_map.mp hc
    by_cases hu : 65 ≤ c0.toNat ∧ c0.toNat ≤ 90
    · right
      have := lowerChar_toNat_of_upper hu
      omega
    · left
      rw [lowerChar_eq_self hu]
      exact hc0
  · rw [if_neg hs]
    intro c hc
    exact Or.inl hc

/-- A case-normalized word is a nonempty space-free token. -/
theorem shoutWord_image_conds {w : List Char} (hne : w ≠ [])
    (hsp : ∀ c ∈ w, isSpaceC c = false) :
    shoutWord w ≠ [] ∧ ∀ c ∈ shoutWord w, isSpaceC c = false := by
  unfold shoutWord
  by_cases hs : isShout w = true
  · rw [if_pos hs]
    constructor
    · intro hz
      exact hne (List.map_eq_nil_iff.mp hz)
    · intro c hc
      obtain ⟨c0, hc0, rfl⟩ := List.mem_map.mp hc
      rw [isSpaceC_lowerChar]
      exact hsp c0 hc0
  · rw [if_neg hs]
    exact ⟨hne, hsp⟩

/-- Collapse preserves a block's kind flag. -/
theorem spaceBlock_collapse (b : List Char) :
    spaceBlock (collapse b) = spaceBlock b := by
  unfold spaceBlock
  rw [List.headD_eq_head?_getD, List.headD_eq_head?_getD, collapse_head?]

/-- Collapsing each block preserves the shape invariant. -/
theorem altBlocks_map_collapse {bs : List (List Char)} (h : AltBlocks bs) :
    AltBlocks (bs.map collapse) := by
  obtain ⟨hm, hc⟩ := h
  constructor
  · intro b hb
    obtain ⟨b0, hb0, rfl⟩ := List.mem_map.mp hb
    obtain ⟨hne, hu⟩ := hm b0 hb0
    refine ⟨fun hz => hne ((collapse_eq_nil_iff b0).mp hz), ?_⟩
    intro x hx
    rw [spaceBlock_collapse]
    exact hu x (collapse_subset b0 x hx)
  · rw [List.chain'_map]
    exact List.Chain'.imp
      (fun a b hab => by rw [spaceBlock_collapse, spaceBlock_collapse]; exact hab)
      hc

/-- Collapse distributes over the flattening of well-formed blocks. -/
theorem collapse_flatten_blocks : ∀ (bs : List (List Char)), AltBlocks bs →
    collapse bs.flatten = (bs.map collapse).flatten
  | [], _ => rfl
  | b :: bs', h => by
      obtain ⟨hm, hc⟩ := h
      have htail : AltBlocks bs' :=
        ⟨fun x hx => hm x (List.mem_cons_of_mem _ hx), hc.tail⟩
      have ih := collapse_flatten_blocks bs' htail
      have hflat : (b :: bs').flatten = b ++ bs'.flatten := rfl
      have hflat2 : ((b :: bs').map collapse).flatten =
          collapse b ++ (bs'.map collapse).flatten := rfl
      rw [hflat, hflat2, ← ih]
      apply collapse_append
      intro a c ha hcv
      cases bs' with
      | nil => simp at hcv
      | cons b2 bs'' =>
          obtain ⟨hb2ne, hb2u⟩ := hm b2 (by simp)
          have hh : (b2 :: bs'').flatten.head? = b2.head? :=
            head?_flatten_blocks _ b2 rfl hb2ne
          rw [hh] at hcv
          have hcmem : c ∈ b2 := List.mem_of_mem_head? (by rw [hcv]; rfl)
          obtain ⟨hbne, hbu⟩ := hm b (List.mem_cons_self _ _)
          have hamem : a ∈ b := List.mem_of_getLast?_eq_some ha
          rw [List.chain'_cons] at hc
          intro he
          apply hc.1
          rw [← hbu a hamem, ← hb2u c hcmem, he]

/-- The blocks of a collapsed text are the collapsed blocks. -/
theorem seg_collapse (l : List Char) :
    seg (collapse l) = (seg l).map collapse := by
  have h1 : collapse l = ((seg l).map collapse).flatten := by
    have h0 := collapse_flatten_blocks (seg l) (altBlocks_seg l)
    rw [flatten_seg] at h0
    exact h0
  rw [h1]
  exact seg_flatten_eq _ (altBlocks_map_collapse (altBlocks_seg l))

/-- The words of a collapsed text are the collapsed words. -/
theorem wordsOf_collapse (l : List Char) :
    wordsOf (collapse l) = (wordsOf l).map collapse := by
  unfold wordsOf
  rw [seg_collapse, List.filter_map]
  congr 1
  apply List.filter_congr
  intro b _
  show (!spaceBlock (collapse b)) = (!spaceBlock b)
  rw [spaceBlock_collapse]

/-- Lowercasing a word is idempotent. -/
theorem lowerL_idem (w : List Char) : lowerL (lowerL w) = lowerL w := by
  unfold lowerL
  rw [List.map_map]
  apply List.map_congr_left
  intro c _
  exact lowerChar_idem c

/-- Case normalization does not change the lowered form of a word. -/
theorem lowerL_shoutWord (w : List Char) :
    lowerL (shoutWord w) = lowerL w := by
  unfold shoutWord
  by_cases h : isShout w = true
  · rw [if_pos h]
    exact lowerL_idem w
  · rw [if_neg h]

/-- A lowered word is never a shout. -/
theorem isShout_lowerL : ∀ (w : List Char), isShout (lowerL w) = false
  | [] => rfl
  | c :: cs => by
      have h1 : (lowerL (c :: cs)).all isUpperC = false := by
        show (lowerChar c :: lowerL cs).all isUpperC = false
        rw [List.all_cons, isUpperC_lowerChar c]
        rfl
      unfold isShout
      rw [h1, Bool.and_false]

/-- A case-normalized word is never a shout. -/
theorem isShout_shoutWord (w : List Char) :
    isShout (shoutWord w) = false := by
  unfold shoutWord
  by_cases h : isShout w = true
  · rw [if_pos h]
    exact isShout_lowerL w
  · rw [if_neg h]
    exact Bool.eq_false_iff.mpr h

/-- Dictionary rewriting fixes words the dictionary does not know. -/
theorem dictWord_eq_self {tbl : List (List Char × List Char)}
    {w : List Char} (h : assocFind (lowerL w) tbl = none) :
    dictWord tbl w = w := by
  simp only [dictWord, h]

/-- Dictionary rewriting substitutes the bound replacement. -/
theorem dictWord_eq_repl {tbl : List (List Char × List Char)}
    {w repl : List Char} (h : assocFind (lowerL w) tbl = some repl) :
    dictWord tbl w = repl := by
  simp only [dictWord, h]

/-- Every word of a dictionary-pass output is a word of the image of some
word of the input. -/
theorem wordsOf_dictPass {tbl : List (List Char × List Char)}
    (hshape : ∀ p ∈ tbl, p.2 ≠ [] ∧ isSpaceC (p.2.headD 'x') = false ∧
      isSpaceC (p.2.getLastD 'x') = false)
    {l w' : List Char} (hw' : w' ∈ wordsOf (mapWords (dictWord tbl) l)) :
    ∃ w ∈ wordsOf l, w' ∈ wordsOf (dictWord tbl w) := by
  have hf : ∀ w ∈ wordsOf l, dictWord tbl w ≠ [] ∧
      (∀ c, (dictWord tbl w).head? = some c → isSpaceC c = false) ∧
      (∀ c, (dictWord tbl w).getLast? = some c → isSpaceC c = false) := by
    intro w hw
    obtain ⟨hne, hsp⟩ := wordsOf_wordish hw
    exact dictWord_image_conds hshape hne hsp
  rw [wordsOf_mapWords hf] at hw'
  obtain ⟨ws, hws, hmem⟩ := List.mem_flatten.mp hw'
  obtain ⟨w, hw, rfl⟩ := List.mem_map.mp hws
  exact ⟨w, hw, hmem⟩

/-- After the slang pass, no word is a slang key. -/
theorem slangPass_words (l : List Char) :
    ∀ w' ∈ wordsOf (slangPass l),
      assocFind (lowerL w') slangTable = none := by
  intro w' hw'
  obtain ⟨w, hw, hmem⟩ := wordsOf_dictPass slangTable_values_shape hw'
  cases hfind : assocFind (lowerL w) slangTable with
  | some repl =>
      rw [dictWord_eq_repl hfind] at hmem
      exact (slangValues_words_clean _ (assocFind_some_mem hfind) w' hmem).1
  | none =>
      obtain ⟨hne, hsp⟩ := wordsOf_wordish hw
      rw [dictWord_eq_self hfind, wordsOf_word hne hsp,
        List.mem_singleton] at hmem
      rw [hmem]
      exact hfind

/-- After the misspelling pass, no word is a slang or misspelling key,
provided no input word was a slang key. -/
theorem misspellPass_words {l : List Char}
    (hl : ∀ w ∈ wordsOf l, assocFind (lowerL w) slangTable = none) :
    ∀ w' ∈ wordsOf (misspellPass l),
      assocFind (lowerL w') slangTable = none ∧
      assocFind (lowerL w') misspellTable = none := by
  intro w' hw'
  obtain ⟨w, hw, hmem⟩ := wordsOf_dictPass missTable_values_shape hw'
  cases hfind : assocFind (lowerL w) misspellTable with
  | some repl =>
      rw [dictWord_eq_repl hfind] at hmem
      exact missValues_words_clean _ (assocFind_some_mem hfind) w' hmem
  | none =>
      obtain ⟨hne, hsp⟩ := wordsOf_wordish hw
      rw [dictWord_eq_self hfind, wordsOf_word hne hsp,
        List.mem_singleton] at hmem
      rw [hmem]
      exact ⟨hl w hw, hfind⟩

/-- A collapsed word whose original form hit no dictionary key (for a
dictionary with duplicate-free keys) still hits none. -/
theorem collapse_word_lookup_none {tbl : List (List Char × List Char)}
    (hkeys : ∀ p ∈ tbl, noAdjB p.1 = true) {w : List Char}
    (hw : assocFind (lowerL w) tbl = none) :
    assocFind (lowerL (collapse w)) tbl = none := by
  cases hfind : assocFind (lowerL (collapse w)) tbl with
  | none => rfl
  | some v =>
      exfalso
      have hkey : noAdjB (lowerL (collapse w)) = true :=
        hkeys _ (assocFind_some_mem hfind)
      have hna : noAdjB (collapse w) = true := noAdjB_of_map lowerChar _ hkey
      have hcw : collapse w = w := collapse_eq_self_of_noAdj w hna
      rw [hcw] at hfind
      exact Option.noConfusion (hw.symm.trans hfind)

/-- The collapse pass preserves that no word is a dictionary key. -/
theorem collapse_words_clean {l : List Char}
    (hl : ∀ w ∈ wordsOf l, assocFind (lowerL w) slangTable = none ∧
      assocFind (lowerL w) misspellTable = none) :
    ∀ w' ∈ wordsOf (collapse l),
      assocFind (lowerL w') slangTable = none ∧
      assocFind (lowerL w') misspellTable = none := by
  intro w' hw'
  rw [wordsOf_collapse] at hw'
  obtain ⟨w, hw, rfl⟩ := List.mem_map.mp hw'
  exact ⟨collapse_word_lookup_none dict_keys_noAdj.1 (hl w hw).1,
    collapse_word_lookup_none dict_keys_noAdj.2 (hl w hw).2⟩

/-- After the case pass, no word is a dictionary key or a shout. -/
theorem casePass_words {l : List Char}
    (hl : ∀ w ∈ wordsOf l, assocFind (lowerL w) slangTable = none ∧
      assocFind (lowerL w) misspellTable = none) :
    ∀ w' ∈ wordsOf (casePass l),
      assocFind (lowerL w') slangTable = none ∧
      assocFind (lowerL w') misspellTable = none ∧
      isShout w' = false := by
  intro w' hw'
  have hf : ∀ w ∈ wordsOf l, shoutWord w ≠ [] ∧
      ∀ c ∈ shoutWord w, isSpaceC c = false := by
    intro w hw
    obtain ⟨hne, hsp⟩ := wordsOf_wordish hw
    exact shoutWord_image_conds hne hsp
  have hw2 : w' ∈ wordsOf (mapWords shoutWord l) := hw'
  rw [wordsOf_mapWords_samekind hf] at hw2
  obtain ⟨w, hw, rfl⟩ := List.mem_map.mp hw2
  refine ⟨?_, ?_, isShout_shoutWord w⟩
  · rw [lowerL_shoutWord]
    exact (hl w hw).1
  · rw [lowerL_shoutWord]
    exact (hl w hw).2

/-- The case pass preserves triple-freeness. -/
theorem noTripleB_casePass {l : List Char} (h : noTripleB l = true) :
    noTripleB (casePass l) = true := by
  refine noTripleB_mapWords_samekind ?_ ?_ h
  · intro w hw
    obtain ⟨hne, hsp⟩ := wordsOf_wordish hw
    exact shoutWord_image_conds hne hsp
  · intro w _ htr
    unfold shoutWord
    by_cases hs : isShout w = true
    · rw [if_pos hs]
      apply noTripleB_lowerL_of_upper w ?_ htr
      intro c hc
      have hall : w.all isUpperC = true := by
        unfold isShout at hs
        rw [Bool.and_eq_true] at hs
        exact hs.2
      exact List.all_eq_true.mp hall c hc
    · rw [if_neg hs]
      exact htr

/-- A dictionary pass with emoji-free replacement values preserves
emoji-freeness. -/
theorem dictPass_emoji_free {tbl : List (List Char × List Char)}
    (htbl : ∀ p ∈ tbl, ∀ c ∈ p.2, assocFind c emojiTable = none)
    {l : List Char} (hl : ∀ c ∈ l, assocFind c emojiTable = none) :
    ∀ c ∈ mapWords (dictWord tbl) l, assocFind c emojiTable = none := by
  intro c hc
  rcases mem_mapWords hc with h | ⟨w, hw, hcw⟩
  · exact hl c h
  · rcases dictWord_chars tbl w c hcw with h | ⟨p, hp, hcp⟩
    · exact hl c (wordsOf_subset hw c h)
    · exact htbl p hp c hcp

/-- The case pass preserves emoji-freeness. -/
theorem casePass_emoji_free {l : List Char}
    (hl : ∀ c ∈ l, assocFind c emojiTable = none) :
    ∀ c ∈ casePass l, assocFind c emojiTable = none := by
  intro c hc
  have hc2 : c ∈ mapWords shoutWord l := hc
  rcases mem_mapWords hc2 with h | ⟨w, hw, hcw⟩
  · exact hl c h
  · rcases shoutWord_chars w c hcw with h | hasc
    · exact hl c (wordsOf_subset hw c h)
    · exact assocFind_emoji_ascii hasc

/-! ## The normalizer invariants and idempotence -/

/-- Normalized text contains no known emoji. -/
theorem normalizeL_emoji_free (x : List Char) :
    ∀ c ∈ normalizeL x, assocFind c emojiTable = none := by
  have h1 : ∀ c ∈ emojiPass x, assocFind c emojiTable = none :=
    emojiPass_clean x
  have h2 : ∀ c ∈ slangPass (emojiPass x), assocFind c emojiTable = none :=
    dictPass_emoji_free dict_values_emoji_clean.1 h1
  have h3 : ∀ c ∈ misspellPass (slangPass (emojiPass x)),
      assocFind c emojiTable = none :=
    dictPass_emoji_free dict_values_emoji_clean.2 h2
  have h4 : ∀ c ∈ collapse (misspellPass (slangPass (emojiPass x))),
      assocFind c emojiTable = none :=
    fun c hc => h3 c (collapse_subset _ c hc)
  exact casePass_emoji_free h4

/-- No word of normalized text is a dictionary key or a shout. -/
theorem normalizeL_words_clean (x : List Char) :
    ∀ w ∈ wordsOf (normalizeL x),
      assocFind (lowerL w) slangTable = none ∧
      assocFind (lowerL w) misspellTable = none ∧
      isShout w = false := by
  have h2 : ∀ w ∈ wordsOf (slangPass (emojiPass x)),
      assocFind (lowerL w) slangTable = none := slangPass_words _
  have h3 := misspellPass_words h2
  have h4 := collapse_words_clean h3
  exact casePass_words h4

/-- Normalized text is triple-free. -/
theorem normalizeL_noTriple (x : List Char) :
    noTripleB (normalizeL x) = true :=
  noTripleB_casePass (noTripleB_collapse _)

/-- The normalizer fixes any text satisfying its output invariants. -/
theorem normalizeL_fixed {l : List Char}
    (hemoji : ∀ c ∈ l, assocFind c emojiTable = none)
    (hwords : ∀ w ∈ wordsOf l, assocFind (lowerL w) slangTable = none ∧
      assocFind (lowerL w) misspellTable = none ∧ isShout w = false)
    (htriple : noTripleB l = true) : normalizeL l = l := by
  have h1 : emojiPass l = l := emojiPass_id l hemoji
  have h2 : slangPass l = l :=
    mapWords_id (fun w hw => dictWord_eq_self (hwords w hw).1)
  have h3 : misspellPass l = l :=
    mapWords_id (fun w hw => dictWord_eq_self (hwords w hw).2.1)
  have h4 : collapse l = l := collapse_eq_self_of_noTriple l htriple
  have h5 : casePass l = l := by
    apply mapWords_id
    intro w hw
    have hs : isShout w = false := (hwords w hw).2.2
    unfold shoutWord
    rw [if_neg (by rw [hs]; exact Bool.false_ne_true)]
  unfold normalizeL
  rw [h1, h2, h3, h4, h5]

/-- Normalization is idempotent at the character-list level. -/
theorem normalizeL_idem (x : List Char) :
    normalizeL (normalizeL x) = normalizeL x :=
  normalizeL_fixed (normalizeL_emoji_free x) (normalizeL_words_clean x)
    (normalizeL_noTriple x)

/-- Text to which no normalization rule applies passes through unchanged. -/
theorem normalizeL_unmapped {l : List Char} (h : unmappedB l = true) :
    normalizeL l = l := by
  unfold unmappedB at h
  simp only [Bool.and_eq_true] at h
  obtain ⟨⟨hemoji, hwords⟩, htriple⟩ := h
  apply normalizeL_fixed
  · intro c hc
    exact Option.isNone_iff_eq_none.mp (List.all_eq_true.mp hemoji c hc)
  · intro w hw
    have hww := List.all_eq_true.mp hwords w hw
    simp only [Bool.and_eq_true] at hww
    obtain ⟨⟨h1, h2⟩, h3⟩ := hww
    refine ⟨Option.isNone_iff_eq_none.mp h1,
      Option.isNone_iff_eq_none.mp h2, ?_⟩
    simpa using h3
  · exact htriple

/-! ## Theorems: extension behavior -/

/-- C1: whenever the backend call of a detection run fails (non-OK HTTP status
or thrown error) and no fresh cache entry short-circuits the run, the caller
still receives the well-formed fallback object with `is_toxic = false`,
`confidence = 0`, empty `toxic_labels`, and the failure reason recorded in the
`error` field; `handleToxicityDetection` is a total function, so no exception
escapes it. -/
theorem claim_C1_backend_failure_fallback (text : String) (cache : Cache)
    (now : ℕ) (outcome : BackendOutcome)
    (hmiss : freshCacheEntry text cache now = none)
    (hfail : outcomeFails outcome = true) :
    (handleToxicityDetection text cache now outcome).response.is_toxic = false ∧
    (handleToxicityDetection text cache now outcome).response.confidence = 0 ∧
    (handleToxicityDetection text cache now outcome).response.toxic_labels = [] ∧
    (handleToxicityDetection text cache now outcome).response.scores = [] ∧
    (handleToxicityDetection text cache now outcome).response.error =
      failureMessage outcome ∧
    (failureMessage outcome).isSome = true := by
  cases outcome with
  | ok r => simp [outcomeFails] at hfail
  | httpError s =>
      simp [handleToxicityDetection, hmiss, errorResponse, failureMessage]
  | thrown m =>
      simp [handleToxicityDetection, hmiss, errorResponse, failureMessage]

/-- Witness for C1 at a concrete failing run. -/
theorem claim_C1_backend_failure_fallback_witness :
    (handleToxicityDetection "you idiot" [] 0
        (.thrown "Failed to fetch")).response.is_toxic = false ∧
    (handleToxicityDetection "you idiot" [] 0
        (.thrown "Failed to fetch")).response.confidence = 0 ∧
    (handleToxicityDetection "you idiot" [] 0
        (.thrown "Failed to fetch")).response.toxic_labels = [] ∧
    (handleToxicityDetection "you idiot" [] 0
        (.thrown "Failed to fetch")).response.scores = [] ∧
    (handleToxicityDetection "you idiot" [] 0
        (.thrown "Failed to fetch")).response.error =
      failureMessage (.thrown "Failed to fetch") ∧
    (failureMessage
        (BackendOutcome.thrown "Failed to fetch")).isSome = true :=
  claim_C1_backend_failure_fallback "you idiot" [] 0 (.thrown "Failed to fetch")
    (by decide) (by decide)

/-- C9: the detection cache identifies inputs up to letter case and
surrounding whitespace.  If a first request for `t1` misses the cache and the
backend returns `r`, then any second request for a text `t2` that equals `t1`
after lowercasing and trimming, arriving within `CACHE_DURATION` (5 minutes)
of the first completing, is answered with the first request's cached result
and the backend is not contacted, whatever its outcome would have been. -/
theorem claim_C9_cache_case_insensitive (t1 t2 : String) (cache : Cache)
    (now1 now2 : ℕ) (r : ApiResult) (outcome2 : BackendOutcome)
    (hmiss : freshCacheEntry t1 cache now1 = none)
    (hkey : trimStr (lowerStr t2) = trimStr (lowerStr t1))
    (htime : now2 - now1 < cacheDuration) :
    handleToxicityDetection t2
        (handleToxicityDetection t1 cache now1 (.ok r)).cache now2 outcome2 =
      ⟨resultResponse r,
       (handleToxicityDetection t1 cache now1 (.ok r)).cache, false⟩ := by
  have hrun1 : (handleToxicityDetection t1 cache now1 (.ok r)).cache =
      (cacheKey t1, ⟨r, now1⟩) :: cache := by
    simp [handleToxicityDetection, hmiss]
  have hkey' : cacheKey t2 = cacheKey t1 := hkey
  have hfresh : freshCacheEntry t2 ((cacheKey t1, ⟨r, now1⟩) :: cache) now2 =
      some ⟨r, now1⟩ := by
    simp [freshCacheEntry, List.lookup, hkey', htime]
  simp [handleToxicityDetection, hmiss, hfresh]

/-- Witness for C9: "Hello YOU" and "  hello you " share a cache entry. -/
theorem claim_C9_cache_case_insensitive_witness :
    handleToxicityDetection "  hello you "
        (handleToxicityDetection "Hello YOU" [] 1000
          (.ok ⟨true, 4/5, ["insult"], [("insult", 4/5)]⟩)).cache
        200000 (.thrown "network down") =
      ⟨resultResponse ⟨true, 4/5, ["insult"], [("insult", 4/5)]⟩,
       (handleToxicityDetection "Hello YOU" [] 1000
          (.ok ⟨true, 4/5, ["insult"], [("insult", 4/5)]⟩)).cache, false⟩ :=
  claim_C9_cache_case_insensitive "Hello YOU" "  hello you " [] 1000 200000
    ⟨true, 4/5, ["insult"], [("insult", 4/5)]⟩ (.thrown "network down")
    (by decide) (by decide) (by decide)

/-- C10: detoxification preserves the original text on failure or no-op.  On
any failing backend outcome `handleTextDetoxification` responds with the
unmodified input as `detoxified_text` plus an error message, and composing
with `quickDetoxify` leaves the element content unchanged; moreover for any
response whose `detoxified_text` is absent or identical to the original text,
`quickDetoxify` leaves the element content unchanged. -/
theorem claim_C10_detox_preserves_original (text content : String)
    (outcome : DetoxOutcome) (resp : DetoxResponse)
    (hfail : detoxFails outcome = true)
    (hnoop : resp.detoxified_text = some text ∨ resp.detoxified_text = none) :
    (handleTextDetoxification text outcome).detoxified_text = some text ∧
    (handleTextDetoxification text outcome).error.isSome = true ∧
    quickDetoxifyContent text (handleTextDetoxification text outcome) content =
      content ∧
    quickDetoxifyContent text resp content = content := by
  refine ⟨?_, ?_, ?_, ?_⟩
  · cases outcome with
    | ok r => simp [detoxFails] at hfail
    | httpError s => simp [handleTextDetoxification]
    | thrown m => simp [handleTextDetoxification]
  · cases outcome with
    | ok r => simp [detoxFails] at hfail
    | httpError s => simp [handleTextDetoxification]
    | thrown m => simp [handleTextDetoxification]
  · cases outcome with
    | ok r => simp [detoxFails] at hfail
    | httpError s => simp [handleTextDetoxification, quickDetoxifyContent]
    | thrown m => simp [handleTextDetoxification, quickDetoxifyContent]
  · rcases hnoop with h | h <;> simp [quickDetoxifyContent, h]

/-- Witness for C10 at a concrete failing run and a concrete no-op response. -/
theorem claim_C10_detox_preserves_original_witness :
    (handleTextDetoxification "you fool" (.httpError 500)).detoxified_text =
      some "you fool" ∧
    (handleTextDetoxification "you fool" (.httpError 500)).error.isSome = true ∧
    quickDetoxifyContent "you fool"
        (handleTextDetoxification "you fool" (.httpError 500)) "you fool" =
      "you fool" ∧
    quickDetoxifyContent "you fool" ⟨some "you fool", none⟩ "you fool" =
      "you fool" :=
  claim_C10_detox_preserves_original "you fool" "you fool" (.httpError 500)
    ⟨some "you fool", none⟩ (by decide) (Or.inl rfl)

/-! ## Theorems: thresholds, weights and boundary checks -/

/-- C2: the toxicity verdict is a threshold comparison — `is_toxic` holds
exactly when the fused confidence is at least the combined threshold, whose
default value is 0.7 (both in `detect` and in the extension's stored default
sensitivity) and which is configurable per request via the sensitivity
argument; and the extension shows a toxicity warning exactly when the
response is toxic and its confidence is at least the stored sensitivity. -/
theorem claim_C2_threshold_verdict (text : String) (base : Option BaseScore)
    (sens : ℚ) (resp : ExtResponse) (st : Settings) :
    ((detect text base sens).is_toxic = true ↔
      sens ≤ (detect text base sens).confidence) ∧
    combinedThreshold = 7/10 ∧
    defaultSettings.sensitivity = 7/10 ∧
    detect text base = detect text base combinedThreshold ∧
    (showWarningDecision resp st.sensitivity = true ↔
      resp.is_toxic = true ∧ st.sensitivity ≤ resp.confidence) := by
  refine ⟨?_, rfl, rfl, rfl, ?_⟩
  · have h1 : (detect text base sens).is_toxic =
        decide (sens ≤ (detect text base sens).confidence) := rfl
    rw [h1, decide_eq_true_eq]
  · simp [showWarningDecision, Bool.and_eq_true, decide_eq_true_eq]

/-- C3: for every non-empty subset of present components, the weights
actually used by fuse sum to exactly 1 (hence trivially within tolerance
10⁻⁹), because an absent component's weight is redistributed proportionally
(each present weight is divided by the total present weight). -/
theorem claim_C3_weights_sum_one (base ctx sarc norm : Option ℚ)
    (h : base.isSome ∨ ctx.isSome ∨ sarc.isSome ∨ norm.isSome) :
    (usedWeights base ctx sarc norm).sum = 1 ∧
    |(usedWeights base ctx sarc norm).sum - 1| ≤ 1 / 1000000000 := by
  have hs := usedWeights_sum base ctx sarc norm h
  refine ⟨hs, ?_⟩
  rw [hs]
  norm_num

/-- Witness for C3 with base and sarcasm present, contextual and
normalization absent. -/
theorem claim_C3_weights_sum_one_witness :
    (usedWeights (some (9/10)) none (some (1/2)) none).sum = 1 ∧
    |(usedWeights (some (9/10)) none (some (1/2)) none).sum - 1| ≤
      1 / 1000000000 :=
  claim_C3_weights_sum_one (some (9/10)) none (some (1/2)) none (Or.inl rfl)

/-- C4 as stated is violated by the content script: a whitespace-only input
of three spaces passes the `!text || text.length < 3` guard, so it does
trigger a detection request even though it is whitespace-only. -/
theorem claim_C4_counterexample :
    wsOnly "   " = true ∧ handleInputTriggersDetection "   " = true := by
  decide

/-- C4 (amended): empty input is rejected at the pipeline boundary as
InvalidInput (the stages are invoked only in the ok branch, so rejected input
never reaches stage execution); in the web page an empty or whitespace-only
input never sends a detection request; in the content script an empty or
shorter-than-3-character input never triggers detection — but a
whitespace-only input of length at least 3 does trigger one there. -/
theorem claim_C4_empty_input_guards (base : Option BaseScore) (sens : ℚ)
    (t1 t2 t3 : String)
    (h1 : t1 = "") (h2 : wsOnly t2 = true) (h3 : t3.length < 3) :
    detectChecked t1 base sens = .error .invalidInput ∧
    checkToxicitySendsRequest t2 = false ∧
    handleInputTriggersDetection t3 = false := by
  refine ⟨?_, ?_, ?_⟩
  · simp [detectChecked, h1]
  · simp [checkToxicitySendsRequest, trimStr_eq_empty_of_wsOnly h2]
  · simp [handleInputTriggersDetection, h3]

/-- Witness for C4 (amended) at concrete guarded inputs. -/
theorem claim_C4_empty_input_guards_witness :
    detectChecked "" none (7/10) = .error .invalidInput ∧
    checkToxicitySendsRequest " " = false ∧
    handleInputTriggersDetection "ab" = false :=
  claim_C4_empty_input_guards none (7/10) "" " " "ab" rfl (by decide)
    (by decide)

/-- C7: sarcasm confidence is monotone in the matched indicators — whenever
every category's match count only grows (in particular when one more
indicator is matched), the confidence never decreases, since category
contributions are nonnegative weights capped per category, summed, then
clamped to the unit interval; and the per-text stage confidence is exactly
this function of the text's match counts. -/
theorem claim_C7_sarcasm_monotone (text : String) (c d : SarcasmCounts)
    (h1 : c.phrases ≤ d.phrases) (h2 : c.punct ≤ d.punct)
    (h3 : c.caps ≤ d.caps) (h4 : c.contradiction ≤ d.contradiction)
    (h5 : c.exaggeration ≤ d.exaggeration) :
    sarcasmConfidence c ≤ sarcasmConfidence d ∧
    (analyzeSarcasm text).confidence =
      sarcasmConfidence (sarcasmCounts text.toList) := by
  refine ⟨?_, rfl⟩
  unfold sarcasmConfidence
  apply clamp01_mono
  unfold sarcasmScore
  have g1 := catContribution_mono (1/5) (2/5) (by norm_num) h1
  have g2 := catContribution_mono (1/10) (1/5) (by norm_num) h2
  have g3 := catContribution_mono (1/10) (1/5) (by norm_num) h3
  have g4 := catContribution_mono (3/20) (3/10) (by norm_num) h4
  have g5 := catContribution_mono (1/20) (1/10) (by norm_num) h5
  exact add_le_add (add_le_add (add_le_add (add_le_add g1 g2) g3) g4) g5

/-- C6: in the Normalizer's repeated-character pass, every maximal run of one
character of length at least 3 is collapsed to exactly its first 2 characters
(and a run of length at most 2 is left unchanged), expressed by
`List.replicate (min n 2)`; in particular "sooooo" becomes "soo". -/
theorem claim_C6_repeated_character_runs (pre suf : List Char) (a : Char)
    (n : ℕ) (hn : 1 ≤ n)
    (hpre : pre.getLast? ≠ some a) (hsuf : suf.head? ≠ some a) :
    collapse (pre ++ (List.replicate n a ++ suf)) =
      collapse pre ++ (List.replicate (min n 2) a ++ collapse suf) ∧
    collapse "sooooo".toList = "soo".toList := by
  refine ⟨?_, rfl⟩
  obtain ⟨m, rfl⟩ : ∃ m, n = m + 1 := ⟨n - 1, by omega⟩
  have hrephead : (List.replicate (m + 1) a ++ suf).head? = some a := by
    rw [List.replicate_succ]
    rfl
  have hreplast : (List.replicate (m + 1) a).getLast? = some a := by
    rw [List.getLast?_replicate]
    simp
  have h1 : collapse (pre ++ (List.replicate (m + 1) a ++ suf)) =
      collapse pre ++ collapse (List.replicate (m + 1) a ++ suf) := by
    apply collapse_append
    intro x y hx hy
    rw [hrephead] at hy
    obtain rfl : y = a := (Option.some.inj hy).symm
    intro hxa
    rw [hxa] at hx
    exact hpre hx
  have h2 : collapse (List.replicate (m + 1) a ++ suf) =
      collapse (List.replicate (m + 1) a) ++ collapse suf := by
    apply collapse_append
    intro x y hx hy
    rw [hreplast] at hx
    obtain rfl : x = a := (Option.some.inj hx).symm
    intro hxy
    rw [← hxy] at hy
    exact hsuf hy
  rw [h1, h2, collapse_replicate]

/-- Witness for C6: the run of five o's in "sooooo". -/
theorem claim_C6_repeated_character_runs_witness :
    collapse (['s'] ++ (List.replicate 5 'o' ++ [])) =
      collapse ['s'] ++ (List.replicate (min 5 2) 'o' ++ collapse []) ∧
    collapse "sooooo".toList = "soo".toList :=
  claim_C6_repeated_character_runs ['s'] [] 'o' 5 (by decide) (by decide)
    (by decide)

/-- Witness for C7: one more matched phrase indicator. -/
theorem claim_C7_sarcasm_monotone_witness :
    sarcasmConfidence ⟨1, 1, 0, 0, 0⟩ ≤ sarcasmConfidence ⟨2, 1, 0, 0, 0⟩ ∧
    (analyzeSarcasm "yeah right!!!").confidence =
      sarcasmConfidence (sarcasmCounts "yeah right!!!".toList) :=
  claim_C7_sarcasm_monotone "yeah right!!!" ⟨1, 1, 0, 0, 0⟩ ⟨2, 1, 0, 0, 0⟩
    (by decide) (by decide) (by decide) (by decide) (by decide)

/-- C8: for every input text, the confidence of every stage result and every
per-label score lies in the closed unit interval — the sarcasm confidence,
the contextual overall toxicity, every per-token confidence and attention
weight, the fused confidence of detect, and every per-label score of the
fused result (the external base classifier's own confidence and scores lie in
the unit interval by its collaborator contract, taken as hypotheses). -/
theorem claim_C8_unit_interval_bounds (text : String) (base : BaseScore)
    (sens : ℚ) (hb : 0 ≤ base.confidence ∧ base.confidence ≤ 1)
    (hbs : ∀ q ∈ base.scores, 0 ≤ q.2 ∧ q.2 ≤ 1) :
    (0 ≤ (analyzeSarcasm text).confidence ∧
      (analyzeSarcasm text).confidence ≤ 1) ∧
    (0 ≤ (analyzeText text).overall_toxicity ∧
      (analyzeText text).overall_toxicity ≤ 1) ∧
    (∀ tl ∈ (analyzeText text).sequence_labels,
      (0 ≤ tl.confidence ∧ tl.confidence ≤ 1) ∧
      (0 ≤ tl.attention_weight ∧ tl.attention_weight ≤ 1)) ∧
    (0 ≤ (detect text (some base) sens).confidence ∧
      (detect text (some base) sens).confidence ≤ 1) ∧
    (∀ p ∈ (detect text (some base) sens).scores, 0 ≤ p.2 ∧ p.2 ≤ 1) := by
  refine ⟨analyzeSarcasm_conf_bounds text, analyzeText_overall_bounds text,
    analyzeText_labels_bounds text, ?_, ?_⟩
  · apply detect_confidence_bounds
    intro b hbm
    rw [Option.mem_def, Option.some_inj] at hbm
    rw [← hbm]
    exact hb
  · apply detect_scores_bounds
    intro b hbm
    rw [Option.mem_def, Option.some_inj] at hbm
    rw [← hbm]
    exact hbs

/-- Witness for C8 at a concrete text, sensitivity and base result. -/
theorem claim_C8_unit_interval_bounds_witness :
    (0 ≤ (analyzeSarcasm "YOU are sooooo stupid!!!").confidence ∧
      (analyzeSarcasm "YOU are sooooo stupid!!!").confidence ≤ 1) ∧
    (0 ≤ (analyzeText "YOU are sooooo stupid!!!").overall_toxicity ∧
      (analyzeText "YOU are sooooo stupid!!!").overall_toxicity ≤ 1) ∧
    (∀ tl ∈ (analyzeText "YOU are sooooo stupid!!!").sequence_labels,
      (0 ≤ tl.confidence ∧ tl.confidence ≤ 1) ∧
      (0 ≤ tl.attention_weight ∧ tl.attention_weight ≤ 1)) ∧
    (0 ≤ (detect "YOU are sooooo stupid!!!"
        (some ⟨true, 1, ["toxic"], [("toxic", 1)]⟩) 1).confidence ∧
      (detect "YOU are sooooo stupid!!!"
        (some ⟨true, 1, ["toxic"], [("toxic", 1)]⟩) 1).confidence ≤ 1) ∧
    (∀ p ∈ (detect "YOU are sooooo stupid!!!"
        (some ⟨true, 1, ["toxic"], [("toxic", 1)]⟩) 1).scores,
      0 ≤ p.2 ∧ p.2 ≤ 1) :=
  claim_C8_unit_interval_bounds "YOU are sooooo stupid!!!"
    ⟨true, 1, ["toxic"], [("toxic", 1)]⟩ 1 (by decide) (by decide)

/-- C5: Normalization is idempotent — for every input text, normalizing the
normalized output of a first normalize call yields the same normalized
string, so a second pass makes no further change; normalize is a total
function (it never fails), and input to which no normalization rule applies
passes through unchanged. -/
theorem claim_C5_normalize_idempotent (text u : String)
    (hu : unmappedB u.toList = true) :
    (normalize (normalize text).normalized).normalized
      = (normalize text).normalized ∧
    (normalize u).normalized = u := by
  constructor
  · show String.mk (normalizeL (String.mk (normalizeL text.toList)).toList)
      = String.mk (normalizeL text.toList)
    have ht : (String.mk (normalizeL text.toList)).toList
        = normalizeL text.toList := rfl
    rw [ht, normalizeL_idem]
  · show String.mk (normalizeL u.toList) = u
    rw [normalizeL_unmapped hu]
    rfl

/-- Witness for C5 at a text every normalization pass rewrites and at an
already-normal text. -/
theorem claim_C5_normalize_idempotent_witness :
    unmappedB "abc def".toList = true ∧
    ((normalize (normalize "OMG ur sooooo stupid!!! lol").normalized).normalized
      = (normalize "OMG ur sooooo stupid!!! lol").normalized ∧
     (normalize "abc def").normalized = "abc def") :=
  ⟨by decide,
   claim_C5_normalize_idempotent "OMG ur sooooo stupid!!! lol" "abc def"
     (by decide)⟩

end ToxDet
